import Mathlib

/-!
# Verification of `string_more` (`src/lib.rs`)

A shallow embedding of the `string_more` Rust crate.  Strings are modelled as
`List Char` (Unicode scalar values) and raw buffers as `List Nat` (bytes).
`utf8EncodeChar`/`utf8Encode` model Rust's UTF-8 encoding of `char`/`str`;
`isCharBoundary` models `str::is_char_boundary`.  The in-place operations of
`StringExt` are modelled at the byte level, exactly following the pointer and
index arithmetic of the source; panics (failed `assert!`s, `usize` underflow)
are modelled by `Option`.
-/

set_option maxHeartbeats 1600000

namespace StringMore

/-- UTF-8 encoding of a single Unicode scalar value, as byte values.
Models Rust's `char::encode_utf8`. -/
def utf8EncodeChar (c : Char) : List Nat :=
  let v := c.toNat
  if v < 0x80 then [v]
  else if v < 0x800 then [0xC0 + v / 64, 0x80 + v % 64]
  else if v < 0x10000 then
    [0xE0 + v / 4096, 0x80 + (v / 64) % 64, 0x80 + v % 64]
  else
    [0xF0 + v / 262144, 0x80 + (v / 4096) % 64, 0x80 + (v / 64) % 64, 0x80 + v % 64]

/-- UTF-8 encoding of a string (`str::as_bytes`). -/
def utf8Encode (cs : List Char) : List Nat :=
  (cs.map utf8EncodeChar).flatten

/-- Models Rust's `str::is_char_boundary` on the byte buffer: `0` is always a
boundary, the length is a boundary, indices beyond the length are not, and an
interior index is a boundary iff its byte is not a continuation byte
(`0x80..0xC0`). -/
def isCharBoundary (l : List Nat) (i : Nat) : Bool :=
  if i = 0 then true
  else
    match l[i]? with
    | none => i = l.length
    | some b => decide (b < 0x80 ∨ 0xC0 ≤ b)

/-- Scalar value of one UTF-8 unit from a lead byte and its continuation
bytes. -/
def utf8DecodeVal (b : Nat) (cont : List Nat) : Char :=
  match cont with
  | [] => Char.ofNat b
  | [b1] => Char.ofNat ((b % 32) * 64 + b1 % 64)
  | [b1, b2] => Char.ofNat ((b % 16) * 4096 + (b1 % 64) * 64 + b2 % 64)
  | [b1, b2, b3] =>
      Char.ofNat ((b % 8) * 262144 + (b1 % 64) * 4096 + (b2 % 64) * 64 + b3 % 64)
  | _ => Char.ofNat 0

/-- Number of continuation bytes announced by a lead byte. -/
def utf8ContLen (b : Nat) : Nat :=
  if b < 0x80 then 0 else if b < 0xE0 then 1 else if b < 0xF0 then 2 else 3

/-- Total UTF-8 decoder used to model `str::chars` on a (valid) byte buffer.
On invalid input it produces garbage, but it is only ever applied to suffixes
and prefixes of valid encodings that are proved to be valid. -/
def utf8Decode : List Nat → List Char
  | [] => []
  | b :: rest =>
    let n := utf8ContLen b
    if rest.length < n then []
    else utf8DecodeVal b (rest.take n) :: utf8Decode (rest.drop n)
termination_by l => l.length
decreasing_by
  simp only [List.length_cons, List.length_drop]
  omega

theorem utf8Encode_nil : utf8Encode [] = [] := rfl

theorem utf8Encode_cons (c : Char) (cs : List Char) :
    utf8Encode (c :: cs) = utf8EncodeChar c ++ utf8Encode cs := by
  simp [utf8Encode]

theorem utf8Encode_append (xs ys : List Char) :
    utf8Encode (xs ++ ys) = utf8Encode xs ++ utf8Encode ys := by
  simp [utf8Encode]

theorem char_toNat_lt (c : Char) : c.toNat < 0x110000 := by
  rcases c.valid with h | h
  · have := UInt32.toNat_lt_of_lt (n := c.val) (m := 0xd800) (by norm_num) h
    simp only [Char.toNat]
    omega
  · have := UInt32.toNat_lt_of_lt (n := c.val) (m := 0x110000) (by norm_num) h.2
    simp only [Char.toNat]
    omega

theorem utf8EncodeChar_eq_one {c : Char} (h1 : c.toNat < 0x80) :
    utf8EncodeChar c = [c.toNat] := by
  simp [utf8EncodeChar, h1]

theorem utf8EncodeChar_eq_two {c : Char} (h1 : ¬ c.toNat < 0x80) (h2 : c.toNat < 0x800) :
    utf8EncodeChar c = [0xC0 + c.toNat / 64, 0x80 + c.toNat % 64] := by
  simp [utf8EncodeChar, h1, h2]

theorem utf8EncodeChar_eq_three {c : Char} (h1 : ¬ c.toNat < 0x80) (h2 : ¬ c.toNat < 0x800)
    (h3 : c.toNat < 0x10000) :
    utf8EncodeChar c = [0xE0 + c.toNat / 4096, 0x80 + (c.toNat / 64) % 64,
      0x80 + c.toNat % 64] := by
  simp [utf8EncodeChar, h1, h2, h3]

theorem utf8EncodeChar_eq_four {c : Char} (h1 : ¬ c.toNat < 0x80) (h2 : ¬ c.toNat < 0x800)
    (h3 : ¬ c.toNat < 0x10000) :
    utf8EncodeChar c = [0xF0 + c.toNat / 262144, 0x80 + (c.toNat / 4096) % 64,
      0x80 + (c.toNat / 64) % 64, 0x80 + c.toNat % 64] := by
  simp [utf8EncodeChar, h1, h2, h3]

/-- The head byte of an encoded character is a "starter" byte (not in
`0x80..0xC0`), and every later byte is a continuation byte (`0x80..0xC0`). -/
theorem utf8EncodeChar_shape (c : Char) :
    ∃ b l, utf8EncodeChar c = b :: l ∧ (b < 0x80 ∨ 0xC0 ≤ b) ∧
      ∀ x ∈ l, 0x80 ≤ x ∧ x < 0xC0 := by
  by_cases h1 : c.toNat < 0x80
  · exact ⟨c.toNat, [], utf8EncodeChar_eq_one h1, Or.inl h1, by simp⟩
  · by_cases h2 : c.toNat < 0x800
    · refine ⟨0xC0 + c.toNat / 64, [0x80 + c.toNat % 64], utf8EncodeChar_eq_two h1 h2,
        Or.inr (by omega), ?_⟩
      intro x hx
      simp only [List.mem_singleton] at hx
      have := Nat.mod_lt c.toNat (y := 64) (by omega)
      omega
    · by_cases h3 : c.toNat < 0x10000
      · refine ⟨0xE0 + c.toNat / 4096,
          [0x80 + (c.toNat / 64) % 64, 0x80 + c.toNat % 64],
          utf8EncodeChar_eq_three h1 h2 h3, Or.inr (by omega), ?_⟩
        intro x hx
        have ha := Nat.mod_lt (c.toNat / 64) (y := 64) (by omega)
        have hb := Nat.mod_lt c.toNat (y := 64) (by omega)
        simp only [List.mem_cons, List.mem_singleton, List.not_mem_nil, or_false] at hx
        rcases hx with hx | hx <;> omega
      · refine ⟨0xF0 + c.toNat / 262144,
          [0x80 + (c.toNat / 4096) % 64, 0x80 + (c.toNat / 64) % 64, 0x80 + c.toNat % 64],
          utf8EncodeChar_eq_four h1 h2 h3, Or.inr (by omega), ?_⟩
        intro x hx
        have ha := Nat.mod_lt (c.toNat / 4096) (y := 64) (by omega)
        have hb := Nat.mod_lt (c.toNat / 64) (y := 64) (by omega)
        have hc := Nat.mod_lt c.toNat (y := 64) (by omega)
        simp only [List.mem_cons, List.mem_singleton, List.not_mem_nil, or_false] at hx
        rcases hx with hx | hx | hx <;> omega

theorem utf8EncodeChar_length_pos (c : Char) : 0 < (utf8EncodeChar c).length := by
  obtain ⟨b, l, he, -, -⟩ := utf8EncodeChar_shape c
  simp [he]

theorem utf8EncodeChar_ne_nil (c : Char) : utf8EncodeChar c ≠ [] := by
  obtain ⟨b, l, he, -, -⟩ := utf8EncodeChar_shape c
  simp [he]

theorem utf8Decode_nil : utf8Decode [] = [] := by
  rw [utf8Decode]

theorem utf8Decode_cons {b : Nat} {r : List Nat} :
    utf8Decode (b :: r) =
      if r.length < utf8ContLen b then []
      else utf8DecodeVal b (r.take (utf8ContLen b))
        :: utf8Decode (r.drop (utf8ContLen b)) := by
  conv_lhs => rw [utf8Decode]

theorem utf8Decode_one {b : Nat} (h : b < 0x80) (r : List Nat) :
    utf8Decode (b :: r) = Char.ofNat b :: utf8Decode r := by
  have hn : utf8ContLen b = 0 := by simp [utf8ContLen, h]
  rw [utf8Decode_cons, hn]
  simp [utf8DecodeVal]

theorem utf8Decode_two {b b1 : Nat} (h1 : ¬ b < 0x80) (h2 : b < 0xE0) (r : List Nat) :
    utf8Decode (b :: b1 :: r) = Char.ofNat ((b % 32) * 64 + b1 % 64) :: utf8Decode r := by
  have hn : utf8ContLen b = 1 := by simp [utf8ContLen, h1, h2]
  rw [utf8Decode_cons, hn]
  simp [utf8DecodeVal]

theorem utf8Decode_three {b b1 b2 : Nat} (h1 : ¬ b < 0xE0) (h2 : b < 0xF0) (r : List Nat) :
    utf8Decode (b :: b1 :: b2 :: r) =
      Char.ofNat ((b % 16) * 4096 + (b1 % 64) * 64 + b2 % 64) :: utf8Decode r := by
  have hn : utf8ContLen b = 2 := by
    have h0 : ¬ b < 0x80 := by omega
    simp [utf8ContLen, h0, h1, h2]
  rw [utf8Decode_cons, hn]
  simp [utf8DecodeVal]

theorem utf8Decode_four {b b1 b2 b3 : Nat} (h1 : ¬ b < 0xF0) (r : List Nat) :
    utf8Decode (b :: b1 :: b2 :: b3 :: r) =
      Char.ofNat ((b % 8) * 262144 + (b1 % 64) * 4096 + (b2 % 64) * 64 + b3 % 64)
        :: utf8Decode r := by
  have hn : utf8ContLen b = 3 := by
    have h0 : ¬ b < 0x80 := by omega
    have h0' : ¬ b < 0xE0 := by omega
    simp [utf8ContLen, h0, h0', h1]
  rw [utf8Decode_cons, hn]
  simp [utf8DecodeVal]

/-- Decoding inverts encoding, character by character. -/
theorem utf8Decode_encodeChar_append (c : Char) (r : List Nat) :
    utf8Decode (utf8EncodeChar c ++ r) = c :: utf8Decode r := by
  have hv := char_toNat_lt c
  have hofNat : Char.ofNat c.toNat = c := Char.ofNat_toNat c
  by_cases h1 : c.toNat < 0x80
  · rw [utf8EncodeChar_eq_one h1, List.cons_append, List.nil_append,
      utf8Decode_one h1, hofNat]
  · by_cases h2 : c.toNat < 0x800
    · rw [utf8EncodeChar_eq_two h1 h2]
      simp only [List.cons_append, List.nil_append]
      rw [utf8Decode_two (by omega) (by omega)]
      have e1 : (0xC0 + c.toNat / 64) % 32 = c.toNat / 64 := by omega
      have e2 : (0x80 + c.toNat % 64) % 64 = c.toNat % 64 := by omega
      rw [e1, e2]
      have : c.toNat / 64 * 64 + c.toNat % 64 = c.toNat := by omega
      rw [this, hofNat]
    · by_cases h3 : c.toNat < 0x10000
      · rw [utf8EncodeChar_eq_three h1 h2 h3]
        simp only [List.cons_append, List.nil_append]
        rw [utf8Decode_three (by omega) (by omega)]
        have e1 : (0xE0 + c.toNat / 4096) % 16 = c.toNat / 4096 := by omega
        have e2 : (0x80 + c.toNat / 64 % 64) % 64 = c.toNat / 64 % 64 := by omega
        have e3 : (0x80 + c.toNat % 64) % 64 = c.toNat % 64 := by omega
        rw [e1, e2, e3]
        have : c.toNat / 4096 * 4096 + c.toNat / 64 % 64 * 64 + c.toNat % 64 = c.toNat := by
          omega
        rw [this, hofNat]
      · rw [utf8EncodeChar_eq_four h1 h2 h3]
        simp only [List.cons_append, List.nil_append]
        rw [utf8Decode_four (by omega)]
        have e1 : (0xF0 + c.toNat / 262144) % 8 = c.toNat / 262144 := by omega
        have e2 : (0x80 + c.toNat / 4096 % 64) % 64 = c.toNat / 4096 % 64 := by omega
        have e3 : (0x80 + c.toNat / 64 % 64) % 64 = c.toNat / 64 % 64 := by omega
        have e4 : (0x80 + c.toNat % 64) % 64 = c.toNat % 64 := by omega
        rw [e1, e2, e3, e4]
        have : c.toNat / 262144 * 262144 + c.toNat / 4096 % 64 * 4096 +
            c.toNat / 64 % 64 * 64 + c.toNat % 64 = c.toNat := by omega
        rw [this, hofNat]

theorem utf8Decode_utf8Encode (cs : List Char) : utf8Decode (utf8Encode cs) = cs := by
  induction cs with
  | nil => rw [utf8Encode_nil, utf8Decode_nil]
  | cons c cs ih =>
    rw [utf8Encode_cons, utf8Decode_encodeChar_append, ih]

theorem utf8EncodeChar_append_inj {c1 c2 : Char} {u v : List Nat}
    (h : utf8EncodeChar c1 ++ u = utf8EncodeChar c2 ++ v) : c1 = c2 ∧ u = v := by
  have hd := congrArg utf8Decode h
  rw [utf8Decode_encodeChar_append, utf8Decode_encodeChar_append] at hd
  have hc : c1 = c2 := by injection hd
  subst hc
  exact ⟨rfl, List.append_cancel_left h⟩

theorem utf8Encode_injective {cs ds : List Char} (h : utf8Encode cs = utf8Encode ds) :
    cs = ds := by
  have := congrArg utf8Decode h
  rwa [utf8Decode_utf8Encode, utf8Decode_utf8Encode] at this

theorem utf8Encode_length_cons (c : Char) (cs : List Char) :
    (utf8Encode (c :: cs)).length = (utf8EncodeChar c).length + (utf8Encode cs).length := by
  rw [utf8Encode_cons]
  simp

/-! ### `is_char_boundary` basics -/

theorem isCharBoundary_zero (l : List Nat) : isCharBoundary l 0 = true := by
  simp [isCharBoundary]

theorem isCharBoundary_length (l : List Nat) : isCharBoundary l l.length = true := by
  rcases Nat.eq_zero_or_pos l.length with h | h
  · rw [h]
    exact isCharBoundary_zero l
  · have hn : l[l.length]? = none := by
      rw [List.getElem?_eq_none_iff]
    simp [isCharBoundary, Nat.pos_iff_ne_zero.mp h, hn]

theorem isCharBoundary_of_gt (l : List Nat) {i : Nat} (h : l.length < i) :
    isCharBoundary l i = false := by
  have h0 : i ≠ 0 := by omega
  have hn : l[i]? = none := by
    rw [List.getElem?_eq_none_iff]
    omega
  simp only [isCharBoundary, h0, if_false, hn, decide_eq_false_iff_not]
  omega

theorem le_length_of_isCharBoundary {l : List Nat} {i : Nat}
    (h : isCharBoundary l i = true) : i ≤ l.length := by
  by_contra hc
  rw [isCharBoundary_of_gt l (by omega)] at h
  exact Bool.false_ne_true h

theorem isCharBoundary_of_starter {l : List Nat} {i b : Nat} (hl : l[i]? = some b)
    (hb : b < 0x80 ∨ 0xC0 ≤ b) : isCharBoundary l i = true := by
  rcases Nat.eq_zero_or_pos i with h0 | h0
  · rw [h0]
    exact isCharBoundary_zero l
  · simp [isCharBoundary, Nat.pos_iff_ne_zero.mp h0, hl, hb]

theorem isCharBoundary_false_of_cont {l : List Nat} {i b : Nat} (h0 : i ≠ 0)
    (hl : l[i]? = some b) (hb : 0x80 ≤ b ∧ b < 0xC0) : isCharBoundary l i = false := by
  simp only [isCharBoundary, h0, if_false, hl, decide_eq_false_iff_not]
  push_neg
  omega

/-- Interior offsets of an encoded character are not boundaries. -/
theorem isCharBoundary_encode_cons_lt (c : Char) (cs : List Char) {i : Nat} (h0 : 0 < i)
    (h : i < (utf8EncodeChar c).length) :
    isCharBoundary (utf8Encode (c :: cs)) i = false := by
  obtain ⟨b, l, he, hb, hcont⟩ := utf8EncodeChar_shape c
  have hget : (utf8Encode (c :: cs))[i]? = (utf8EncodeChar c)[i]? := by
    rw [utf8Encode_cons]
    exact List.getElem?_append_left (by omega)
  have hi : ∃ x, (utf8EncodeChar c)[i]? = some x ∧ x ∈ l := by
    rw [he]
    rcases i with _ | j
    · omega
    · have hj : j < l.length := by
        rw [he] at h
        simpa using h
      refine ⟨l[j], ?_, List.getElem_mem hj⟩
      simp [List.getElem?_eq_getElem hj]
  obtain ⟨x, hx, hxl⟩ := hi
  exact isCharBoundary_false_of_cont (by omega) (hget ▸ hx) (hcont x hxl)

/-- Offsets past the first character shift down by its length. -/
theorem isCharBoundary_encode_cons_shift (c : Char) (cs : List Char) (j : Nat) :
    isCharBoundary (utf8Encode (c :: cs)) ((utf8EncodeChar c).length + j) =
      isCharBoundary (utf8Encode cs) j := by
  rcases Nat.eq_zero_or_pos j with hj | hj
  · subst hj
    rw [isCharBoundary_zero]
    rcases Nat.eq_zero_or_pos (utf8Encode cs).length with hn | hn
    · have : (utf8Encode (c :: cs)).length = (utf8EncodeChar c).length + 0 := by
        rw [utf8Encode_length_cons, hn]
      have := this ▸ isCharBoundary_length (utf8Encode (c :: cs))
      simpa using this
    · obtain ⟨d, ds, hds⟩ : ∃ d ds, cs = d :: ds := by
        cases cs with
        | nil => simp [utf8Encode_nil] at hn
        | cons d ds => exact ⟨d, ds, rfl⟩
      subst hds
      obtain ⟨b, l, he, hb, -⟩ := utf8EncodeChar_shape d
      have hget : (utf8Encode (c :: d :: ds))[(utf8EncodeChar c).length + 0]? =
          some b := by
        rw [utf8Encode_cons]
        rw [List.getElem?_append_right (by omega)]
        have hz : (utf8EncodeChar c).length + 0 - (utf8EncodeChar c).length = 0 := by omega
        rw [hz, utf8Encode_cons, he]
        simp
      rw [isCharBoundary_of_starter hget hb]
  · have h0 : (utf8EncodeChar c).length + j ≠ 0 := by omega
    have hgetEq : (utf8Encode (c :: cs))[(utf8EncodeChar c).length + j]? =
        (utf8Encode cs)[j]? := by
      rw [utf8Encode_cons, List.getElem?_append_right (by omega)]
      congr 1
      omega
    have hlen : (utf8Encode (c :: cs)).length = (utf8EncodeChar c).length +
        (utf8Encode cs).length := utf8Encode_length_cons c cs
    cases hg : (utf8Encode cs)[j]? with
    | none =>
      have hj2 : (utf8Encode cs).length ≤ j := by
        rw [← List.getElem?_eq_none_iff]
        exact hg
      simp only [isCharBoundary, h0, if_false, hgetEq, hg, Nat.pos_iff_ne_zero.mp hj]
      simp only [hlen, decide_eq_decide]
      omega
    | some b =>
      simp [isCharBoundary, h0, hgetEq, hg, Nat.pos_iff_ne_zero.mp hj]

/-- A byte offset into an encoded string is a `char` boundary iff it is the
byte length of the encoding of some prefix of the string. -/
theorem isCharBoundary_encode_iff (cs : List Char) (i : Nat) :
    isCharBoundary (utf8Encode cs) i = true ↔
      ∃ p s, cs = p ++ s ∧ (utf8Encode p).length = i := by
  induction cs generalizing i with
  | nil =>
    constructor
    · intro h
      have hle := le_length_of_isCharBoundary h
      simp only [utf8Encode_nil, List.length_nil, Nat.le_zero] at hle
      refine ⟨[], [], rfl, ?_⟩
      rw [utf8Encode_nil, hle]
      rfl
    · rintro ⟨p, s, hps, hlen⟩
      have hp : p = [] := (List.append_eq_nil.mp hps.symm).1
      subst hp
      simp only [utf8Encode_nil, List.length_nil] at hlen
      rw [← hlen]
      exact isCharBoundary_zero _
  | cons c cs ih =>
    by_cases hi0 : i = 0
    · subst hi0
      simp only [isCharBoundary_zero, true_iff]
      exact ⟨[], c :: cs, rfl, rfl⟩
    · by_cases hlt : i < (utf8EncodeChar c).length
      · rw [isCharBoundary_encode_cons_lt c cs (by omega) hlt]
        constructor
        · intro hff
          exact absurd hff (by simp)
        rintro ⟨p, s, hps, hlen⟩
        exfalso
        cases p with
        | nil => simp [utf8Encode_nil] at hlen; omega
        | cons d p' =>
          have hd : d = c := by
            have := congrArg (fun l => l.head?) hps
            simpa using this.symm
          subst hd
          rw [utf8Encode_length_cons] at hlen
          omega
      · have hge : (utf8EncodeChar c).length ≤ i := by omega
        obtain ⟨j, hj⟩ : ∃ j, i = (utf8EncodeChar c).length + j :=
          ⟨i - (utf8EncodeChar c).length, by omega⟩
        subst hj
        rw [isCharBoundary_encode_cons_shift c cs j, ih j]
        constructor
        · rintro ⟨p, s, hps, hlen⟩
          exact ⟨c :: p, s, by rw [hps, List.cons_append],
            by rw [utf8Encode_length_cons, hlen]⟩
        · rintro ⟨p, s, hps, hlen⟩
          cases p with
          | nil =>
            simp only [utf8Encode_nil, List.length_nil] at hlen
            have := utf8EncodeChar_length_pos c
            omega
          | cons d p' =>
            have hd : d = c := by
              have := congrArg (fun l => l.head?) hps
              simpa using this.symm
            subst hd
            rw [utf8Encode_length_cons] at hlen
            exact ⟨p', s, by
              have := congrArg (fun l => l.tail) hps
              simpa using this, by omega⟩

/-! ### Boundary scanner: `next_char_boundary` / `previous_char_boundary` -/

/-- The `while !self.is_char_boundary(index) { index += 1 }` loop of
`next_char_boundary`, with fuel `l.length - index` (the loop can advance at
most up to the length, which is always a boundary). -/
def nextBoundaryLoop (l : List Nat) : Nat → Nat → Nat
  | 0, i => i
  | fuel + 1, i => if isCharBoundary l i then i else nextBoundaryLoop l fuel (i + 1)

/-- Models `StrExt::next_char_boundary`: clamp indices beyond the length to
the length, then scan forward to the first boundary. -/
def next_char_boundary (l : List Nat) (i : Nat) : Nat :=
  if l.length < i then l.length
  else nextBoundaryLoop l (l.length - i) i

/-- Models `StrExt::previous_char_boundary`: scan backward
(`while !self.is_char_boundary(index) { index -= 1 }`; offset `0` is always a
boundary, so the loop never underflows). -/
def previous_char_boundary (l : List Nat) : Nat → Nat
  | 0 => 0
  | i + 1 =>
    if isCharBoundary l (i + 1) then i + 1 else previous_char_boundary l i

theorem nextBoundaryLoop_spec (l : List Nat) :
    ∀ fuel i, i + fuel = l.length →
      isCharBoundary l (nextBoundaryLoop l fuel i) = true ∧
      i ≤ nextBoundaryLoop l fuel i ∧
      ∀ j, i ≤ j → isCharBoundary l j = true → nextBoundaryLoop l fuel i ≤ j := by
  intro fuel
  induction fuel with
  | zero =>
    intro i hi
    simp only [nextBoundaryLoop]
    have hieq : i = l.length := by omega
    subst hieq
    exact ⟨isCharBoundary_length l, Nat.le_refl _, fun j hj _ => hj⟩
  | succ fuel ih =>
    intro i hi
    simp only [nextBoundaryLoop]
    by_cases hb : isCharBoundary l i = true
    · rw [if_pos hb]
      exact ⟨hb, Nat.le_refl _, fun j hj _ => hj⟩
    · rw [if_neg hb]
      obtain ⟨h1, h2, h3⟩ := ih (i + 1) (by omega)
      refine ⟨h1, by omega, ?_⟩
      intro j hj hbj
      have : j ≠ i := fun he => hb (he ▸ hbj)
      exact h3 j (by omega) hbj

theorem next_char_boundary_spec (l : List Nat) (i : Nat) :
    isCharBoundary l (next_char_boundary l i) = true ∧
    min i l.length ≤ next_char_boundary l i ∧
    ∀ j, min i l.length ≤ j → isCharBoundary l j = true → next_char_boundary l i ≤ j := by
  by_cases hgt : l.length < i
  · simp only [next_char_boundary, hgt, if_true]
    have hm : min i l.length = l.length := by omega
    rw [hm]
    exact ⟨isCharBoundary_length l, le_refl _, fun j hj _ => hj⟩
  · simp only [next_char_boundary, hgt, if_false]
    have hm : min i l.length = i := by omega
    rw [hm]
    exact nextBoundaryLoop_spec l (l.length - i) i (by omega)

theorem next_char_boundary_le_length (l : List Nat) (i : Nat) :
    next_char_boundary l i ≤ l.length := by
  obtain ⟨-, -, h3⟩ := next_char_boundary_spec l i
  exact h3 l.length (by omega) (isCharBoundary_length l)

theorem le_next_char_boundary (l : List Nat) {i : Nat} (h : i ≤ l.length) :
    i ≤ next_char_boundary l i := by
  obtain ⟨-, h2, -⟩ := next_char_boundary_spec l i
  omega

theorem previous_char_boundary_spec (l : List Nat) (i : Nat) :
    isCharBoundary l (previous_char_boundary l i) = true ∧
    previous_char_boundary l i ≤ min i l.length ∧
    ∀ j, j ≤ min i l.length → isCharBoundary l j = true →
      j ≤ previous_char_boundary l i := by
  induction i with
  | zero =>
    simp only [previous_char_boundary]
    exact ⟨isCharBoundary_zero l, by omega, fun j hj _ => by omega⟩
  | succ i ih =>
    simp only [previous_char_boundary]
    by_cases hb : isCharBoundary l (i + 1) = true
    · rw [if_pos hb]
      have hle := le_length_of_isCharBoundary hb
      exact ⟨hb, by omega, fun j hj _ => by omega⟩
    · rw [if_neg hb]
      obtain ⟨h1, h2, h3⟩ := ih
      refine ⟨h1, by omega, ?_⟩
      intro j hj hbj
      have hne : j ≠ i + 1 := fun he => hb (he ▸ hbj)
      have hjlen := le_length_of_isCharBoundary hbj
      exact h3 j (by omega) hbj

/-! ### Claims C8 and C9: the boundary scanner contracts -/

/-- C8: for every string `b` and index `i`, `next_char_boundary b i` is a valid
boundary; it is the smallest boundary `≥ i` when `i ≤ length b` and is
`length b` when `i > length b` (together: the smallest boundary
`≥ min i (length b)`); and `next_char_boundary b 0 = 0`,
`next_char_boundary b (length b) = length b`. -/
theorem claim_C8 (cs : List Char) (i : Nat) :
    isCharBoundary (utf8Encode cs) (next_char_boundary (utf8Encode cs) i) = true ∧
    min i (utf8Encode cs).length ≤ next_char_boundary (utf8Encode cs) i ∧
    (∀ j, min i (utf8Encode cs).length ≤ j → isCharBoundary (utf8Encode cs) j = true →
      next_char_boundary (utf8Encode cs) i ≤ j) ∧
    ((utf8Encode cs).length < i →
      next_char_boundary (utf8Encode cs) i = (utf8Encode cs).length) ∧
    next_char_boundary (utf8Encode cs) 0 = 0 ∧
    next_char_boundary (utf8Encode cs) (utf8Encode cs).length = (utf8Encode cs).length := by
  obtain ⟨h1, h2, h3⟩ := next_char_boundary_spec (utf8Encode cs) i
  refine ⟨h1, h2, h3, ?_, ?_, ?_⟩
  · intro hgt
    simp [next_char_boundary, hgt]
  · obtain ⟨-, -, g3⟩ := next_char_boundary_spec (utf8Encode cs) 0
    have := g3 0 (by omega) (isCharBoundary_zero _)
    omega
  · obtain ⟨-, g2, g3⟩ := next_char_boundary_spec (utf8Encode cs) (utf8Encode cs).length
    have ha := g3 (utf8Encode cs).length (by omega) (isCharBoundary_length _)
    omega

theorem claim_C8_witness :
    isCharBoundary (utf8Encode ['a']) (next_char_boundary (utf8Encode ['a']) 0) = true ∧
    min 0 (utf8Encode ['a']).length ≤ next_char_boundary (utf8Encode ['a']) 0 ∧
    (∀ j, min 0 (utf8Encode ['a']).length ≤ j →
      isCharBoundary (utf8Encode ['a']) j = true →
      next_char_boundary (utf8Encode ['a']) 0 ≤ j) ∧
    ((utf8Encode ['a']).length < 0 →
      next_char_boundary (utf8Encode ['a']) 0 = (utf8Encode ['a']).length) ∧
    next_char_boundary (utf8Encode ['a']) 0 = 0 ∧
    next_char_boundary (utf8Encode ['a']) (utf8Encode ['a']).length =
      (utf8Encode ['a']).length :=
  claim_C8 ['a'] 0

/-- C9: `previous_char_boundary` is total for every index (it never
underflows, because offset `0` is always a boundary), and returns the largest
boundary `≤ min i (length b)`; in particular for `i ≥ length b` it returns
`length b`. -/
theorem claim_C9 (cs : List Char) (i : Nat) :
    isCharBoundary (utf8Encode cs) (previous_char_boundary (utf8Encode cs) i) = true ∧
    previous_char_boundary (utf8Encode cs) i ≤ min i (utf8Encode cs).length ∧
    (∀ j, j ≤ min i (utf8Encode cs).length → isCharBoundary (utf8Encode cs) j = true →
      j ≤ previous_char_boundary (utf8Encode cs) i) ∧
    ((utf8Encode cs).length ≤ i →
      previous_char_boundary (utf8Encode cs) i = (utf8Encode cs).length) := by
  obtain ⟨h1, h2, h3⟩ := previous_char_boundary_spec (utf8Encode cs) i
  refine ⟨h1, h2, h3, ?_⟩
  intro hge
  have := h3 (utf8Encode cs).length (by omega) (isCharBoundary_length _)
  omega

theorem claim_C9_witness :
    isCharBoundary (utf8Encode ['a']) (previous_char_boundary (utf8Encode ['a']) 7) = true ∧
    previous_char_boundary (utf8Encode ['a']) 7 ≤ min 7 (utf8Encode ['a']).length ∧
    (∀ j, j ≤ min 7 (utf8Encode ['a']).length →
      isCharBoundary (utf8Encode ['a']) j = true →
      j ≤ previous_char_boundary (utf8Encode ['a']) 7) ∧
    ((utf8Encode ['a']).length ≤ 7 →
      previous_char_boundary (utf8Encode ['a']) 7 = (utf8Encode ['a']).length) :=
  claim_C9 ['a'] 7

/-! ### Claim C4: `hamming_distance` -/

/-- The `loop` of `hamming_distance`: draw one `char` from each iterator;
if the source is exhausted, the result is `None` exactly when the target
still has characters; a missing target character is `None` via `?`. -/
def hammingLoop : List Char → List Char → Nat → Option Nat
  | [], [], d => some d
  | [], _ :: _, _ => none
  | _ :: _, [], _ => none
  | a :: s, b :: t, d => hammingLoop s t (d + (if a ≠ b then 1 else 0))

/-- Models `StrExt::hamming_distance`. -/
def hamming_distance (s t : List Char) : Option Nat :=
  hammingLoop s t 0

/-- Number of positions where two equal-length character sequences differ. -/
def diffCount (s t : List Char) : Nat :=
  ((s.zip t).filter (fun p => decide (p.1 ≠ p.2))).length

theorem hammingLoop_spec (s : List Char) :
    ∀ t d, hammingLoop s t d =
      if s.length = t.length then some (d + diffCount s t) else none := by
  induction s with
  | nil =>
    intro t d
    cases t with
    | nil => simp [hammingLoop, diffCount]
    | cons b t => simp [hammingLoop]
  | cons a s ih =>
    intro t d
    cases t with
    | nil => simp [hammingLoop]
    | cons b t =>
      simp only [hammingLoop, ih, List.length_cons]
      by_cases hl : s.length = t.length
      · have hl2 : s.length + 1 = t.length + 1 := by omega
        rw [if_pos hl, if_pos hl2]
        have hd : diffCount (a :: s) (b :: t) =
            (if a ≠ b then 1 else 0) + diffCount s t := by
          by_cases hab : a = b <;> simp [diffCount, List.zip, hab] <;> omega
        rw [hd]
        congr 1
        omega
      · rw [if_neg hl, if_neg (by omega)]

/-- C4: `hamming_distance a b` is `None` iff the code-point counts differ,
and on equal counts it is `Some` of the number of differing positions. -/
theorem claim_C4 (s t : List Char) :
    (hamming_distance s t = none ↔ s.length ≠ t.length) ∧
    (s.length = t.length → hamming_distance s t = some (diffCount s t)) := by
  unfold hamming_distance
  rw [hammingLoop_spec]
  by_cases hl : s.length = t.length
  · rw [if_pos hl]
    simp [hl]
  · rw [if_neg hl]
    simp [hl]

theorem claim_C4_witness :
    (hamming_distance ['a', 'b', 'c'] ['d', 'e', 'f'] = none ↔
      (['a', 'b', 'c'] : List Char).length ≠ (['d', 'e', 'f'] : List Char).length) ∧
    ((['a', 'b', 'c'] : List Char).length = (['d', 'e', 'f'] : List Char).length →
      hamming_distance ['a', 'b', 'c'] ['d', 'e', 'f'] =
        some (diffCount ['a', 'b', 'c'] ['d', 'e', 'f'])) :=
  claim_C4 ['a', 'b', 'c'] ['d', 'e', 'f']

/-! ### Splice engine -/

/-- `times` consecutive copies of the byte pattern `f` (the stamping loops
`for i in (..).step_by(fill.len()) { bytes[i..i + fill.len()].copy_from_slice(fill) }`). -/
def repeatFill (f : List Nat) (n : Nat) : List Nat :=
  (List.replicate n f).flatten

/-- `times` consecutive copies of a character sequence (the
`for _ in 0..times { string.push_str(fill) }` loops). -/
def repeatChars (f : List Char) (n : Nat) : List Char :=
  (List.replicate n f).flatten

theorem repeatFill_length (f : List Nat) (n : Nat) :
    (repeatFill f n).length = n * f.length := by
  induction n with
  | zero => simp [repeatFill]
  | succ n ih =>
    simp only [repeatFill, List.replicate_succ, List.flatten_cons, List.length_append]
    rw [repeatFill] at ih
    rw [ih]
    ring

theorem utf8Encode_repeatChars (f : List Char) (n : Nat) :
    utf8Encode (repeatChars f n) = repeatFill (utf8Encode f) n := by
  induction n with
  | zero => simp [repeatChars, repeatFill, utf8Encode_nil]
  | succ n ih =>
    simp only [repeatChars, repeatFill, List.replicate_succ, List.flatten_cons]
    rw [utf8Encode_append]
    rw [repeatChars] at ih
    rw [ih]
    rfl

theorem repeatChars_eq_nil {f : List Char} {n : Nat} (h : f = [] ∨ n = 0) :
    repeatChars f n = [] := by
  rcases h with h | h <;> simp [repeatChars, h]

theorem utf8Encode_take_append (p s : List Char) :
    (utf8Encode (p ++ s)).take (utf8Encode p).length = utf8Encode p := by
  rw [utf8Encode_append]
  exact List.take_left _ _

theorem utf8Encode_drop_append (p s : List Char) :
    (utf8Encode (p ++ s)).drop (utf8Encode p).length = utf8Encode s := by
  rw [utf8Encode_append]
  exact List.drop_left _ _

/-- Models `StringExt::fill_start_in_place`: after the guard, the buffer is
grown, existing content is moved forward by `fill.len() * times` with
`copy_within`, and `times` copies of `fill` are stamped at the front. -/
def fill_start_in_place (b : List Nat) (fill : List Char) (times : Nat) : List Nat :=
  let f := utf8Encode fill
  if f = [] ∨ times = 0 then b
  else repeatFill f times ++ b

/-- Models `StringExt::fill_end_in_place` (reserve then repeated `push_str`). -/
def fill_end_in_place (b : List Nat) (fill : List Char) (times : Nat) : List Nat :=
  let f := utf8Encode fill
  if f = [] ∨ times = 0 then b
  else b ++ repeatFill f times

/-- Models `StringExt::center_in_place`: content moves to offset
`additional / 2`, `times` copies are stamped in front of it and `times`
copies after it. -/
def center_in_place (b : List Nat) (fill : List Char) (times : Nat) : List Nat :=
  let f := utf8Encode fill
  if f = [] ∨ times = 0 then b
  else repeatFill f times ++ b ++ repeatFill f times

/-- Models `StringExt::enclose_in_place`: no-op only when both fills are
empty, otherwise content moves forward by `fill_start.len()` and the two
fills are written at the front and at the end. -/
def enclose_in_place (b : List Nat) (fillStart fillEnd : List Char) : List Nat :=
  let fs := utf8Encode fillStart
  let fe := utf8Encode fillEnd
  if fs = [] ∧ fe = [] then b
  else fs ++ b ++ fe

/-- Models `StrExt::fill_start` (allocate, push the fill `times` times, push
the original slice). -/
def fill_start (cs fill : List Char) (times : Nat) : List Char :=
  repeatChars fill times ++ cs

/-- Models `StrExt::fill_end`. -/
def fill_end (cs fill : List Char) (times : Nat) : List Char :=
  cs ++ repeatChars fill times

/-- Models `StrExt::center`. -/
def center (cs fill : List Char) (times : Nat) : List Char :=
  repeatChars fill times ++ cs ++ repeatChars fill times

/-- Models `StrExt::enclose`. -/
def enclose (cs fillStart fillEnd : List Char) : List Char :=
  fillStart ++ cs ++ fillEnd

/-- Models `StringExt::set` (`clear` then `push_str`). -/
def set (b : List Nat) (s : List Char) : List Nat :=
  utf8Encode s

/-! ### `shift` / `shift_in_place` (claim C7) -/

/-- Models `StringExt::shift_in_place`.  The two `assert!`s are checked first
(a failed assertion is a panic, modelled as `none`, and happens before any
mutation); then the fill is encoded; `count == 0` or an empty fill is a no-op;
`count == 1` delegates to `insert_str`; otherwise the suffix starting at
`index` is moved forward by `count * fill.len()` and `count` copies of the
fill are stamped into the gap. -/
def shift_in_place (b : List Nat) (index count : Nat) (fill : List Char) :
    Option (List Nat) :=
  if isCharBoundary b index = true then
    if index ≤ b.length then
      let f := utf8Encode fill
      if count = 0 ∨ f = [] then some b
      else if count = 1 then some (b.take index ++ f ++ b.drop index)
      else some (b.take index ++ repeatFill f count ++ b.drop index)
    else none
  else none

/-- Models `StrExt::shift` (same asserts; builds
`self[..index] + fill * count + self[index..]` in a fresh string). -/
def shift (b : List Nat) (index count : Nat) (fill : List Char) :
    Option (List Nat) :=
  if isCharBoundary b index = true then
    if index ≤ b.length then
      let f := utf8Encode fill
      if count = 0 ∨ f = [] then some b
      else some (b.take index ++ repeatFill f count ++ b.drop index)
    else none
  else none

theorem shift_in_place_isSome {b : List Nat} {index count : Nat} {fill : List Char}
    (h : isCharBoundary b index = true) :
    ∃ r, shift_in_place b index count fill = some r := by
  have hle : index ≤ b.length := le_length_of_isCharBoundary h
  unfold shift_in_place
  rw [if_pos h, if_pos hle]
  by_cases h0 : count = 0 ∨ utf8Encode fill = []
  · rw [if_pos h0]
    exact ⟨b, rfl⟩
  · rw [if_neg h0]
    by_cases h1 : count = 1
    · rw [if_pos h1]
      exact ⟨_, rfl⟩
    · rw [if_neg h1]
      exact ⟨_, rfl⟩

/-- When the asserts pass, `shift_in_place` produces
`take index ++ count copies of fill ++ drop index` (the `count = 1` branch
through `insert_str` produces the same bytes). -/
theorem shift_in_place_eq {b : List Nat} {index count : Nat} {fill : List Char}
    (h : isCharBoundary b index = true) :
    shift_in_place b index count fill =
      some (if count = 0 ∨ utf8Encode fill = [] then b
        else b.take index ++ repeatFill (utf8Encode fill) count ++ b.drop index) := by
  have hle : index ≤ b.length := le_length_of_isCharBoundary h
  unfold shift_in_place
  rw [if_pos h, if_pos hle]
  by_cases h0 : count = 0 ∨ utf8Encode fill = []
  · rw [if_pos h0, if_pos h0]
  · rw [if_neg h0, if_neg h0]
    by_cases h1 : count = 1
    · rw [if_pos h1, h1]
      simp [repeatFill]
    · rw [if_neg h1]

theorem shift_in_place_length {b : List Nat} {index count : Nat} {fill : List Char}
    {r : List Nat} (h : shift_in_place b index count fill = some r) :
    r.length = b.length + count * (utf8Encode fill).length := by
  by_cases hb : isCharBoundary b index = true
  · have hle : index ≤ b.length := le_length_of_isCharBoundary hb
    rw [shift_in_place_eq hb] at h
    by_cases h0 : count = 0 ∨ utf8Encode fill = []
    · rw [if_pos h0] at h
      cases h
      rcases h0 with h0 | h0
      · simp [h0]
      · simp [h0]
    · rw [if_neg h0] at h
      cases h
      simp only [List.length_append, List.length_take, List.length_drop,
        repeatFill_length]
      omega
  · unfold shift_in_place at h
    rw [if_neg hb] at h
    cases h

/-- Shifting at the encoded length of a prefix inserts the fill characters
between prefix and suffix, at the character level. -/
theorem shift_in_place_encode (p s : List Char) (count : Nat) (fill : List Char) :
    shift_in_place (utf8Encode (p ++ s)) (utf8Encode p).length count fill =
      some (utf8Encode (p ++ repeatChars fill count ++ s)) := by
  have hb : isCharBoundary (utf8Encode (p ++ s)) (utf8Encode p).length = true :=
    (isCharBoundary_encode_iff (p ++ s) (utf8Encode p).length).mpr ⟨p, s, rfl, rfl⟩
  rw [shift_in_place_eq hb]
  by_cases h0 : count = 0 ∨ utf8Encode fill = []
  · rw [if_pos h0]
    have hf : repeatChars fill count = [] := by
      rcases h0 with h0 | h0
      · exact repeatChars_eq_nil (Or.inr h0)
      · have : fill = [] := by
          cases fill with
          | nil => rfl
          | cons c cs =>
            rw [utf8Encode_cons] at h0
            exact absurd (List.append_eq_nil.mp h0).1 (utf8EncodeChar_ne_nil c)
        exact repeatChars_eq_nil (Or.inl this)
    rw [hf]
    simp
  · rw [if_neg h0, utf8Encode_take_append, utf8Encode_drop_append]
    rw [utf8Encode_append, utf8Encode_append, utf8Encode_repeatChars]

/-- C7: `shift_in_place` faults exactly when `index` is not a `char`
boundary (in particular whenever `index > length`), independently of `count`
and of the fill (including `count = 0` and the empty fill); the check
precedes any mutation (a faulting call produces no buffer at all in this
model, the input is untouched); when the boundary precondition holds the
call never faults. -/
theorem claim_C7 (cs : List Char) (index count : Nat) (fill : List Char) :
    (shift_in_place (utf8Encode cs) index count fill = none ↔
      isCharBoundary (utf8Encode cs) index = false) ∧
    ((utf8Encode cs).length < index →
      shift_in_place (utf8Encode cs) index count fill = none) ∧
    (isCharBoundary (utf8Encode cs) index = true →
      ∃ r, shift_in_place (utf8Encode cs) index count fill = some r) := by
  refine ⟨⟨?_, ?_⟩, ?_, fun h => shift_in_place_isSome h⟩
  · intro hnone
    by_contra hb
    rw [Bool.not_eq_false] at hb
    obtain ⟨r, hr⟩ := @shift_in_place_isSome (utf8Encode cs) index count fill hb
    rw [hr] at hnone
    cases hnone
  · intro hb
    unfold shift_in_place
    rw [if_neg (by rw [hb]; exact Bool.false_ne_true)]
  · intro hlt
    unfold shift_in_place
    rw [if_neg (by rw [isCharBoundary_of_gt _ hlt]; exact Bool.false_ne_true)]

theorem claim_C7_witness :
    ((shift_in_place (utf8Encode ['a']) 2 0 [] = none ↔
      isCharBoundary (utf8Encode ['a']) 2 = false) ∧
    ((utf8Encode ['a']).length < 2 →
      shift_in_place (utf8Encode ['a']) 2 0 [] = none) ∧
    (isCharBoundary (utf8Encode ['a']) 2 = true →
      ∃ r, shift_in_place (utf8Encode ['a']) 2 0 [] = some r)) ∧
    (utf8Encode ['a']).length < 2 :=
  ⟨claim_C7 ['a'] 2 0 [], by decide⟩

/-! ### Claim C6: tab expansion -/

/-- Specification-side result of tab expansion: every `'\t'` becomes
`tabsize` spaces, everything else is unchanged and in order. -/
def expandSpec (tabsize : Nat) (cs : List Char) : List Char :=
  (cs.map (fun c => if c = '\t' then List.replicate tabsize ' ' else [c])).flatten

/-- The per-tab stamping of `StrExt::expand_tabs`: widths 2, 4 and 8 push a
fixed string of spaces, any other width pushes `tabsize` spaces in a loop. -/
def expandStamp (tabsize : Nat) : List Char :=
  match tabsize with
  | 2 => [' ', ' ']
  | 4 => [' ', ' ', ' ', ' ']
  | 8 => [' ', ' ', ' ', ' ', ' ', ' ', ' ', ' ']
  | _ => List.replicate tabsize ' '

theorem expandStamp_eq (tabsize : Nat) : expandStamp tabsize = List.replicate tabsize ' ' := by
  unfold expandStamp
  split <;> rfl

/-- The `while let Some(i) = source.find('\t')` loop of `StrExt::expand_tabs`:
push the slice before the first tab, push the expansion, resume after the
tab.  (`str::find` returns the byte offset of the tab; since the prefix
before the tab is the same character sequence either way, it is modelled by
the character index here.) -/
def expandTabsLoop (tabsize : Nat) (src : List Char) : List Char :=
  match h : src.findIdx? (fun c => c == '\t') with
  | some i =>
      src.take i ++ expandStamp tabsize ++ expandTabsLoop tabsize (src.drop (i + 1))
  | none => src
termination_by src.length
decreasing_by
  obtain ⟨hlt, -, -⟩ := List.findIdx?_eq_some_iff_getElem.mp h
  simp only [List.length_drop]
  omega

/-- Models `StrExt::expand_tabs`. -/
def expand_tabs (cs : List Char) (tabsize : Nat) : List Char :=
  if tabsize = 0 ∨ cs = [] then cs
  else expandTabsLoop tabsize cs

theorem expandSpec_append (k : Nat) (u v : List Char) :
    expandSpec k (u ++ v) = expandSpec k u ++ expandSpec k v := by
  simp [expandSpec]

theorem expandSpec_no_tab {u : List Char} (h : ∀ c ∈ u, c ≠ '\t') (k : Nat) :
    expandSpec k u = u := by
  induction u with
  | nil => rfl
  | cons c u ih =>
    have hc : c ≠ '\t' := h c (List.mem_cons_self c u)
    simp only [expandSpec, List.map_cons, List.flatten_cons, if_neg hc]
    rw [expandSpec] at ih
    rw [ih (fun x hx => h x (List.mem_cons_of_mem c hx))]
    rfl

theorem expandSpec_tab_cons (k : Nat) (r : List Char) :
    expandSpec k ('\t' :: r) = List.replicate k ' ' ++ expandSpec k r := by
  simp [expandSpec]

theorem expandSpec_cons_of_ne {c : Char} (h : c ≠ '\t') (k : Nat) (r : List Char) :
    expandSpec k (c :: r) = c :: expandSpec k r := by
  simp [expandSpec, h]

theorem expandTabsLoop_eq_spec (k : Nat) (src : List Char) :
    expandTabsLoop k src = expandSpec k src := by
  have key : ∀ n (src : List Char), src.length = n →
      expandTabsLoop k src = expandSpec k src := by
    intro n
    induction n using Nat.strong_induction_on with
    | _ n ih =>
      intro src hn
      rw [expandTabsLoop]
      split
      · rename_i i h
        obtain ⟨hlt, hp, hprev⟩ := List.findIdx?_eq_some_iff_getElem.mp h
        have htab : src[i] = '\t' := by
          simpa using hp
        have hnotab : ∀ c ∈ src.take i, c ≠ '\t' := by
          intro c hc
          rw [List.mem_iff_getElem] at hc
          obtain ⟨j, hj, hcj⟩ := hc
          have hjlen : j < src.length := by
            simp only [List.length_take] at hj
            omega
          have hji : j < i := by
            simp only [List.length_take] at hj
            omega
          have := hprev j hji
          rw [← hcj, List.getElem_take]
          simpa using this
        have hsplit : src = src.take i ++ '\t' :: src.drop (i + 1) := by
          conv_lhs => rw [← List.take_append_drop i src]
          rw [List.drop_eq_getElem_cons hlt, htab]
        conv_rhs => rw [hsplit]
        rw [expandSpec_append, expandSpec_no_tab hnotab, expandSpec_tab_cons]
        rw [ih (src.drop (i + 1)).length (by simp only [List.length_drop]; omega)
          (src.drop (i + 1)) rfl, expandStamp_eq]
        simp [List.append_assoc]
      · rename_i h
        have hnotab : ∀ c ∈ src, c ≠ '\t' := by
          intro c hc
          have := List.findIdx?_eq_none_iff.mp h c hc
          simpa using this
        rw [expandSpec_no_tab hnotab]
  exact key src.length src rfl

theorem expand_tabs_zero (cs : List Char) : expand_tabs cs 0 = cs := by
  simp [expand_tabs]

theorem expand_tabs_eq_spec (cs : List Char) {k : Nat} (hk : 1 ≤ k) :
    expand_tabs cs k = expandSpec k cs := by
  unfold expand_tabs
  by_cases hc : cs = []
  · subst hc
    simp [expandSpec]
  · have hg : ¬ (k = 0 ∨ cs = []) := by
      push_neg
      exact ⟨by omega, hc⟩
    rw [if_neg hg, expandTabsLoop_eq_spec]

theorem repeatChars_singleton (x : Char) (n : Nat) :
    repeatChars [x] n = List.replicate n x := by
  induction n with
  | zero => rfl
  | succ n ih =>
    simp only [repeatChars, List.replicate_succ, List.flatten_cons] at ih ⊢
    rw [ih]
    rfl

theorem utf8Encode_replicate_space (n : Nat) :
    utf8Encode (List.replicate n ' ') = List.replicate n 32 := by
  induction n with
  | zero => rfl
  | succ n ih =>
    rw [List.replicate_succ, utf8Encode_cons, ih, List.replicate_succ]
    rfl

/-- No interior offset of a character's encoding is a boundary: between the
end of `done` and the end of `done ++ [c]` there is no boundary. -/
theorem boundary_between (done : List Char) (c : Char) (r : List Char) {j : Nat}
    (h1 : (utf8Encode done).length < j)
    (h2 : j < (utf8Encode done).length + (utf8EncodeChar c).length) :
    isCharBoundary (utf8Encode (done ++ c :: r)) j = false := by
  by_contra hb
  rw [Bool.not_eq_false] at hb
  obtain ⟨p, s, hps, hlen⟩ := (isCharBoundary_encode_iff _ _).mp hb
  have hp1 : done <+: done ++ c :: r := List.prefix_append done (c :: r)
  have hp2 : p <+: done ++ c :: r := hps ▸ List.prefix_append p s
  rcases List.prefix_or_prefix_of_prefix hp1 hp2 with hpp | hpp
  · obtain ⟨e, he⟩ := hpp
    subst he
    rw [List.append_assoc] at hps
    have hcr : c :: r = e ++ s := List.append_cancel_left hps
    cases e with
    | nil =>
      rw [List.append_nil] at hlen
      omega
    | cons c0 e' =>
      have hc0 : c0 = c := by
        have := congrArg (fun l => l.head?) hcr
        simpa using this.symm
      subst hc0
      rw [utf8Encode_append, utf8Encode_cons] at hlen
      simp only [List.length_append] at hlen
      omega
  · obtain ⟨e, he⟩ := hpp
    have : (utf8Encode done).length = (utf8Encode p).length + (utf8Encode e).length := by
      rw [← he, utf8Encode_append, List.length_append]
    omega

/-- After skipping one byte inside the character `c`, the next boundary is
exactly the end of `c`'s encoding. -/
theorem next_char_boundary_after_char (done : List Char) (c : Char) (r : List Char) :
    next_char_boundary (utf8Encode (done ++ c :: r)) ((utf8Encode done).length + 1) =
      (utf8Encode done).length + (utf8EncodeChar c).length := by
  have hsz : 1 ≤ (utf8EncodeChar c).length := utf8EncodeChar_length_pos c
  have hblen : (utf8Encode (done ++ c :: r)).length =
      (utf8Encode done).length + (utf8EncodeChar c).length + (utf8Encode r).length := by
    rw [utf8Encode_append, utf8Encode_cons]
    simp only [List.length_append]
    omega
  have hbnd : isCharBoundary (utf8Encode (done ++ c :: r))
      ((utf8Encode done).length + (utf8EncodeChar c).length) = true := by
    refine (isCharBoundary_encode_iff _ _).mpr ⟨done ++ [c], r, by simp, ?_⟩
    rw [utf8Encode_append, utf8Encode_cons, utf8Encode_nil]
    simp
  obtain ⟨h1, h2, h3⟩ := next_char_boundary_spec (utf8Encode (done ++ c :: r))
    ((utf8Encode done).length + 1)
  have hmin : min ((utf8Encode done).length + 1) (utf8Encode (done ++ c :: r)).length =
      (utf8Encode done).length + 1 := by omega
  rw [hmin] at h2 h3
  have hle := h3 ((utf8Encode done).length + (utf8EncodeChar c).length) (by omega) hbnd
  by_contra hne
  have hlt : next_char_boundary (utf8Encode (done ++ c :: r))
      ((utf8Encode done).length + 1) <
      (utf8Encode done).length + (utf8EncodeChar c).length := by omega
  have hfalse := boundary_between done c r (by omega : (utf8Encode done).length <
    next_char_boundary (utf8Encode (done ++ c :: r)) ((utf8Encode done).length + 1)) hlt
  rw [h1] at hfalse
  simp at hfalse

theorem encode_getElem_head (done : List Char) (c : Char) (r : List Char) :
    (utf8Encode (done ++ c :: r))[(utf8Encode done).length]? =
      (utf8EncodeChar c)[0]? := by
  rw [utf8Encode_append, utf8Encode_cons]
  rw [List.getElem?_append_right (Nat.le_refl _)]
  rw [Nat.sub_self]
  exact List.getElem?_append_left (utf8EncodeChar_length_pos c)

theorem encodeChar_head_nine {c : Char}
    (h : (utf8EncodeChar c)[0]? = some 9) : c = '\t' := by
  by_cases h1 : c.toNat < 0x80
  · rw [utf8EncodeChar_eq_one h1] at h
    simp only [List.getElem?_cons_zero, Option.some.injEq] at h
    have : c = Char.ofNat 9 := by
      rw [← Char.ofNat_toNat c, h]
    rw [this]
  · by_cases h2 : c.toNat < 0x800
    · rw [utf8EncodeChar_eq_two h1 h2] at h
      simp only [List.getElem?_cons_zero, Option.some.injEq] at h
      omega
    · by_cases h3 : c.toNat < 0x10000
      · rw [utf8EncodeChar_eq_three h1 h2 h3] at h
        simp only [List.getElem?_cons_zero, Option.some.injEq] at h
        omega
      · rw [utf8EncodeChar_eq_four h1 h2 h3] at h
        simp only [List.getElem?_cons_zero, Option.some.injEq] at h
        omega

/-- The byte scan of `expand_tabs_in_place`: while `i < self.len()`, a tab
byte at `i` is overwritten with a space, `shift_in_place(i, tabsize - 1, ' ')`
pads the rest of the stop, and the scan resumes at `i + tabsize`; otherwise
`i` advances to the next character boundary after `i`.  Requires
`1 ≤ tabsize` (the source guards the loop with `tabsize == 0`). -/
def etLoop (tabsize : Nat) (ht : 1 ≤ tabsize) (b : List Nat) (i : Nat) :
    Option (List Nat) :=
  if hlt : i < b.length then
    if b[i]? = some 9 then
      match hs : shift_in_place (b.take i ++ 32 :: b.drop (i + 1)) i (tabsize - 1) [' '] with
      | some b2 => etLoop tabsize ht b2 (i + tabsize)
      | none => none
    else etLoop tabsize ht b (next_char_boundary b (i + 1))
  else some b
termination_by b.length - i
decreasing_by
  · have hlen := shift_in_place_length hs
    simp only [List.length_append, List.length_take, List.length_cons,
      List.length_drop] at hlen
    have he : (utf8Encode [' ']).length = 1 := rfl
    rw [he] at hlen
    omega
  · have h1 := le_next_char_boundary b (i := i + 1) (by omega)
    omega

/-- Models `StringExt::expand_tabs_in_place`. -/
def expand_tabs_in_place (b : List Nat) (tabsize : Nat) : Option (List Nat) :=
  if h : tabsize = 0 ∨ b = [] then some b
  else etLoop tabsize (by omega) b 0

theorem etLoop_encode (k : Nat) (hk : 1 ≤ k) :
    ∀ (rest done : List Char),
      etLoop k hk (utf8Encode (done ++ rest)) (utf8Encode done).length =
        some (utf8Encode (done ++ expandSpec k rest)) := by
  intro rest
  induction rest with
  | nil =>
    intro done
    rw [etLoop]
    have hn : ¬ ((utf8Encode done).length < (utf8Encode (done ++ [])).length) := by
      simp
    rw [dif_neg hn]
    simp [expandSpec]
  | cons c r ihr =>
    intro done
    rw [etLoop]
    have hsz := utf8EncodeChar_length_pos c
    have hblen : (utf8Encode (done ++ c :: r)).length =
        (utf8Encode done).length + (utf8EncodeChar c).length + (utf8Encode r).length := by
      rw [utf8Encode_append, utf8Encode_cons]
      simp only [List.length_append]
      omega
    have hlt : (utf8Encode done).length < (utf8Encode (done ++ c :: r)).length := by
      omega
    rw [dif_pos hlt]
    by_cases hc : c = '\t'
    · subst hc
      have hget : (utf8Encode (done ++ '\t' :: r))[(utf8Encode done).length]? = some 9 := by
        rw [encode_getElem_head]
        rfl
      rw [if_pos hget]
      have htake : (utf8Encode (done ++ '\t' :: r)).take (utf8Encode done).length =
          utf8Encode done := utf8Encode_take_append done ('\t' :: r)
      have hdrop : (utf8Encode (done ++ '\t' :: r)).drop ((utf8Encode done).length + 1) =
          utf8Encode r := by
        rw [utf8Encode_append, utf8Encode_cons]
        have htb : utf8EncodeChar '\t' = [9] := rfl
        rw [htb]
        have hpl : (utf8Encode done).length + 1 = (utf8Encode done ++ [9]).length := by
          simp
        rw [← List.append_assoc, hpl, List.drop_left]
      have hb1 : (utf8Encode (done ++ '\t' :: r)).take (utf8Encode done).length ++
          32 :: (utf8Encode (done ++ '\t' :: r)).drop ((utf8Encode done).length + 1) =
          utf8Encode (done ++ ' ' :: r) := by
        rw [htake, hdrop, utf8Encode_append, utf8Encode_cons]
        rfl
      have hshift : shift_in_place
          ((utf8Encode (done ++ '\t' :: r)).take (utf8Encode done).length ++
            32 :: (utf8Encode (done ++ '\t' :: r)).drop ((utf8Encode done).length + 1))
          (utf8Encode done).length (k - 1) [' '] =
          some (utf8Encode ((done ++ List.replicate k ' ') ++ r)) := by
        rw [hb1, shift_in_place_encode done (' ' :: r) (k - 1) [' ']]
        have hrw : done ++ repeatChars [' '] (k - 1) ++ ' ' :: r =
            (done ++ List.replicate k ' ') ++ r := by
          rw [repeatChars_singleton]
          have hrepl : List.replicate (k - 1) ' ' ++ ' ' :: r = List.replicate k ' ' ++ r := by
            have hk1 : k - 1 + 1 = k := by omega
            rw [← hk1, List.replicate_succ']
            simp [List.append_assoc]
          rw [List.append_assoc, hrepl, ← List.append_assoc]
        rw [hrw]
      split
      · rename_i b2 heq
        rw [hshift] at heq
        injection heq with heq
        subst heq
        have hidx : (utf8Encode done).length + k =
            (utf8Encode (done ++ List.replicate k ' ')).length := by
          rw [utf8Encode_append, utf8Encode_replicate_space]
          simp
        rw [hidx, ihr (done ++ List.replicate k ' ')]
        rw [expandSpec_tab_cons]
        simp [List.append_assoc]
      · rename_i heq
        rw [hshift] at heq
        cases heq
    · have hget : ¬ ((utf8Encode (done ++ c :: r))[(utf8Encode done).length]? = some 9) := by
        rw [encode_getElem_head]
        intro h
        exact hc (encodeChar_head_nine h)
      rw [if_neg hget]
      rw [next_char_boundary_after_char done c r]
      have hidx : (utf8Encode done).length + (utf8EncodeChar c).length =
          (utf8Encode (done ++ [c])).length := by
        rw [utf8Encode_append]
        simp [utf8Encode_cons, utf8Encode_nil]
      have hsplit : done ++ c :: r = (done ++ [c]) ++ r := by
        simp
      rw [hidx, hsplit, ihr (done ++ [c])]
      rw [expandSpec_cons_of_ne hc]
      simp [List.append_assoc]

theorem expand_tabs_in_place_zero (b : List Nat) :
    expand_tabs_in_place b 0 = some b := by
  simp [expand_tabs_in_place]

theorem expand_tabs_in_place_encode (cs : List Char) {k : Nat} (hk : 1 ≤ k) :
    expand_tabs_in_place (utf8Encode cs) k = some (utf8Encode (expandSpec k cs)) := by
  unfold expand_tabs_in_place
  by_cases hc : cs = []
  · subst hc
    rw [dif_pos (show k = 0 ∨ utf8Encode ([] : List Char) = [] from Or.inr rfl)]
    rfl
  · have hne : utf8Encode cs ≠ [] := by
      cases cs with
      | nil => exact absurd rfl hc
      | cons c cs =>
        rw [utf8Encode_cons]
        intro h
        exact utf8EncodeChar_ne_nil c (List.append_eq_nil.mp h).1
    rw [dif_neg (by push_neg; exact ⟨by omega, hne⟩)]
    have := etLoop_encode k (by omega) cs []
    simpa using this

/-- C6: `expand_tabs`/`expand_tabs_in_place` with tabsize `0` are no-ops; for
any `tabsize ≥ 1` both produce the input with every `'\t'` replaced by exactly
`tabsize` spaces, all other characters unchanged and in order; and the
specialized stamping paths for widths 2, 4, 8 coincide with the generic
path (`tabsize` spaces). -/
theorem claim_C6 (cs : List Char) (k : Nat) :
    expand_tabs cs 0 = cs ∧
    expand_tabs_in_place (utf8Encode cs) 0 = some (utf8Encode cs) ∧
    (1 ≤ k → expand_tabs cs k = expandSpec k cs ∧
      expand_tabs_in_place (utf8Encode cs) k = some (utf8Encode (expandSpec k cs))) ∧
    expandStamp k = List.replicate k ' ' := by
  exact ⟨expand_tabs_zero cs, expand_tabs_in_place_zero _,
    fun hk => ⟨expand_tabs_eq_spec cs hk, expand_tabs_in_place_encode cs hk⟩,
    expandStamp_eq k⟩

theorem claim_C6_witness :
    (expand_tabs ['\t', 'x', '\t'] 0 = ['\t', 'x', '\t'] ∧
    expand_tabs_in_place (utf8Encode ['\t', 'x', '\t']) 0 =
      some (utf8Encode ['\t', 'x', '\t']) ∧
    (1 ≤ 2 → expand_tabs ['\t', 'x', '\t'] 2 = expandSpec 2 ['\t', 'x', '\t'] ∧
      expand_tabs_in_place (utf8Encode ['\t', 'x', '\t']) 2 =
        some (utf8Encode (expandSpec 2 ['\t', 'x', '\t']))) ∧
    expandStamp 2 = List.replicate 2 ' ') ∧
    expandSpec 2 ['\t', 'x', '\t'] = [' ', ' ', 'x', ' ', ' '] :=
  ⟨claim_C6 ['\t', 'x', '\t'] 2, by decide⟩

/-! ### Trim engine -/

/-- Character-level result of `str::trim_start` (a std collaborator),
parametrized by the whitespace predicate `char::is_whitespace`. -/
def trimStartChars (ws : Char → Bool) (cs : List Char) : List Char :=
  cs.dropWhile ws

/-- Character-level result of `str::trim_end`. -/
def trimEndChars (ws : Char → Bool) (cs : List Char) : List Char :=
  (cs.reverse.dropWhile ws).reverse

/-- Character-level result of `str::trim` (both ends). -/
def trimChars (ws : Char → Bool) (cs : List Char) : List Char :=
  trimEndChars ws (trimStartChars ws cs)

/-- Models `StringExt::trim_start_in_place`: `start` is the pointer offset of
the trimmed subslice inside the buffer (`offset_from`), `len` its byte
length; the byte region `start..start + len` is copied to the front
(`copy_within`) and the buffer truncated to `len`. -/
def trim_start_in_place (ws : Char → Bool) (cs : List Char) : List Nat :=
  let b := utf8Encode cs
  let start := (utf8Encode (cs.takeWhile ws)).length
  let len := (utf8Encode (trimStartChars ws cs)).length
  (b.drop start).take len

/-- Models `StringExt::trim_end_in_place` (`truncate(self.trim_end().len())`). -/
def trim_end_in_place (ws : Char → Bool) (cs : List Char) : List Nat :=
  (utf8Encode cs).take (utf8Encode (trimEndChars ws cs)).length

/-- Models `StringExt::trim_in_place` (offset of the doubly-trimmed slice,
`copy_within`, truncate). -/
def trim_in_place (ws : Char → Bool) (cs : List Char) : List Nat :=
  let b := utf8Encode cs
  let start := (utf8Encode (cs.takeWhile ws)).length
  let len := (utf8Encode (trimChars ws cs)).length
  (b.drop start).take len

theorem trimEndChars_append (ws : Char → Bool) (cs : List Char) :
    cs = trimEndChars ws cs ++ (cs.reverse.takeWhile ws).reverse := by
  conv_lhs => rw [← List.reverse_reverse cs]
  conv_lhs => rw [← List.takeWhile_append_dropWhile (p := ws) (l := cs.reverse)]
  rw [List.reverse_append]
  rfl

theorem trim_start_in_place_encode (ws : Char → Bool) (cs : List Char) :
    trim_start_in_place ws cs = utf8Encode (trimStartChars ws cs) := by
  simp only [trim_start_in_place, trimStartChars]
  have h1 : utf8Encode cs =
      utf8Encode (cs.takeWhile ws) ++ utf8Encode (cs.dropWhile ws) := by
    rw [← utf8Encode_append, List.takeWhile_append_dropWhile]
  rw [h1, List.drop_left, List.take_length]

theorem trim_end_in_place_encode (ws : Char → Bool) (cs : List Char) :
    trim_end_in_place ws cs = utf8Encode (trimEndChars ws cs) := by
  simp only [trim_end_in_place]
  have h1 := congrArg utf8Encode (trimEndChars_append ws cs)
  rw [utf8Encode_append] at h1
  rw [h1, List.take_left]

theorem trim_in_place_encode (ws : Char → Bool) (cs : List Char) :
    trim_in_place ws cs = utf8Encode (trimChars ws cs) := by
  simp only [trim_in_place, trimChars, trimStartChars]
  have h1 : utf8Encode cs =
      utf8Encode (cs.takeWhile ws) ++ utf8Encode (cs.dropWhile ws) := by
    rw [← utf8Encode_append, List.takeWhile_append_dropWhile]
  have h2 := congrArg utf8Encode (trimEndChars_append ws (cs.dropWhile ws))
  rw [utf8Encode_append] at h2
  rw [h1, List.drop_left, h2, List.take_left]

/-! ### Claim C10: `replace_in_place` -/

/-- Leftmost occurrence of `pat` in `hay` (byte offset), modelling
`str::find(&str)`: substring search over the underlying bytes. -/
def findSub (hay pat : List Nat) : Option Nat :=
  match hay with
  | [] => if pat = [] then some 0 else none
  | _ :: t =>
    if pat.isPrefixOf hay then some 0 else (findSub t pat).map (· + 1)

theorem findSub_nil (pat : List Nat) :
    findSub [] pat = if pat = [] then some 0 else none := rfl

theorem findSub_cons (x : Nat) (t pat : List Nat) :
    findSub (x :: t) pat =
      if pat.isPrefixOf (x :: t) then some 0 else (findSub t pat).map (· + 1) := rfl

theorem findSub_some_le {hay pat : List Nat} :
    ∀ {i : Nat}, findSub hay pat = some i →
      i + pat.length ≤ hay.length ∧ pat <+: hay.drop i := by
  induction hay with
  | nil =>
    intro i h
    rw [findSub_nil] at h
    by_cases hp : pat = []
    · rw [if_pos hp] at h
      injection h with h
      subst h
      simp [hp]
    · rw [if_neg hp] at h
      cases h
  | cons x t ih =>
    intro i h
    rw [findSub_cons] at h
    by_cases hp : pat.isPrefixOf (x :: t) = true
    · rw [if_pos hp] at h
      injection h with h
      subst h
      have := List.isPrefixOf_iff_prefix.mp hp
      exact ⟨by simpa using this.length_le, by simpa using this⟩
    · rw [if_neg hp] at h
      rcases Option.map_eq_some'.mp h with ⟨j, hj, hij⟩
      obtain ⟨h1, h2⟩ := ih hj
      subst hij
      constructor
      · simp only [List.length_cons]
        omega
      · simpa using h2

theorem findSub_none {hay pat : List Nat} (hp : pat ≠ []) :
    findSub hay pat = none → ∀ j, ¬ (pat <+: hay.drop j) := by
  induction hay with
  | nil =>
    intro h j hj
    rw [List.drop_nil] at hj
    exact hp (List.prefix_nil.mp hj)
  | cons x t ih =>
    intro h
    rw [findSub_cons] at h
    by_cases hpre : pat.isPrefixOf (x :: t) = true
    · rw [if_pos hpre] at h
      cases h
    · rw [if_neg hpre] at h
      have ht : findSub t pat = none := by
        cases hft : findSub t pat with
        | none => rfl
        | some j =>
          rw [hft] at h
          simp at h
      intro j
      cases j with
      | zero =>
        intro hj
        exact hpre (List.isPrefixOf_iff_prefix.mpr (by simpa using hj))
      | succ j =>
        simpa using ih ht j

/-- The standard-library `str::replace` for a nonempty pattern: replace the
leftmost occurrence, continue after the replacement (non-overlapping). -/
def replaceSpec (fr tgt : List Char) : List Char → List Char
  | [] => []
  | c :: rest =>
    if h : fr ≠ [] ∧ fr.isPrefixOf (c :: rest) then
      tgt ++ replaceSpec fr tgt ((c :: rest).drop fr.length)
    else c :: replaceSpec fr tgt rest
termination_by l => l.length
decreasing_by
  · have hfr : 0 < fr.length := List.length_pos.mpr h.1
    simp only [List.length_drop, List.length_cons]
    omega
  · simp only [List.length_cons]
    omega

theorem replaceSpec_nil (fr tgt : List Char) : replaceSpec fr tgt [] = [] := by
  rw [replaceSpec]

theorem utf8Encode_prefix_mono {u v : List Char} (h : u <+: v) :
    utf8Encode u <+: utf8Encode v := by
  obtain ⟨e, he⟩ := h
  exact ⟨utf8Encode e, by rw [← utf8Encode_append, he]⟩

theorem prefix_transfer {u : List Char} :
    ∀ {v : List Char}, utf8Encode u <+: utf8Encode v → u <+: v := by
  induction u with
  | nil => exact fun _ => List.nil_prefix
  | cons c u ih =>
    intro v h
    cases v with
    | nil =>
      rw [utf8Encode_nil] at h
      have := List.prefix_nil.mp h
      rw [utf8Encode_cons] at this
      exact absurd (List.append_eq_nil.mp this).1 (utf8EncodeChar_ne_nil c)
    | cons d v =>
      obtain ⟨w, hw⟩ := h
      rw [utf8Encode_cons, utf8Encode_cons, List.append_assoc] at hw
      obtain ⟨hcd, hrest⟩ := utf8EncodeChar_append_inj hw
      subst hcd
      have : utf8Encode u <+: utf8Encode v := ⟨w, hrest⟩
      exact List.cons_prefix_cons.mpr ⟨rfl, ih this⟩

/-- Skipping continuation bytes: a pattern that starts with a starter byte
cannot match at any offset pointing into them. -/
theorem findSub_cont_skip {b0 : Nat} {l0 : List Nat} (hb0 : b0 < 0x80 ∨ 0xC0 ≤ b0) :
    ∀ (m w : List Nat), (∀ x ∈ m, 0x80 ≤ x ∧ x < 0xC0) →
      findSub (m ++ w) (b0 :: l0) = (findSub w (b0 :: l0)).map (· + m.length) := by
  intro m
  induction m with
  | nil =>
    intro w hm
    simp only [List.nil_append, List.length_nil]
    cases findSub w (b0 :: l0) <;> simp
  | cons x m ih =>
    intro w hm
    have hx := hm x (List.mem_cons_self x m)
    have hpre : ¬ ((b0 :: l0).isPrefixOf (x :: (m ++ w)) = true) := by
      intro hp
      have := List.isPrefixOf_iff_prefix.mp hp
      have hhd : b0 = x := (List.cons_prefix_cons.mp this).1
      omega
    rw [List.cons_append, findSub_cons, if_neg hpre,
      ih w (fun y hy => hm y (List.mem_cons_of_mem x hy))]
    cases findSub w (b0 :: l0) with
    | none => rfl
    | some j =>
      simp only [Option.map_some', List.length_cons, Option.some.injEq]
      omega

/-- If `fr` is not a character-level prefix, the byte search steps over the
whole first character. -/
theorem findSub_encode_cons {fr : List Char} (hfr : fr ≠ []) (c : Char) (r : List Char)
    (hnp : ¬ (fr.isPrefixOf (c :: r) = true)) :
    findSub (utf8Encode (c :: r)) (utf8Encode fr) =
      (findSub (utf8Encode r) (utf8Encode fr)).map (· + (utf8EncodeChar c).length) := by
  obtain ⟨f0, fl, hfe⟩ : ∃ f0 fl, fr = f0 :: fl := by
    cases fr with
    | nil => exact absurd rfl hfr
    | cons f0 fl => exact ⟨f0, fl, rfl⟩
  obtain ⟨b0, l0, hb0e, hb0, -⟩ := utf8EncodeChar_shape f0
  have hfrB : utf8Encode fr = b0 :: (l0 ++ utf8Encode fl) := by
    rw [hfe, utf8Encode_cons, hb0e]
    simp
  obtain ⟨cb, cl, hce, hcb, hccont⟩ := utf8EncodeChar_shape c
  have hcsB : utf8Encode (c :: r) = cb :: (cl ++ utf8Encode r) := by
    rw [utf8Encode_cons, hce]
    simp
  have hpre0 : ¬ ((utf8Encode fr).isPrefixOf (utf8Encode (c :: r)) = true) := by
    intro hp
    exact hnp (List.isPrefixOf_iff_prefix.mpr
      (prefix_transfer (List.isPrefixOf_iff_prefix.mp hp)))
  rw [hcsB, findSub_cons, ← hcsB, if_neg hpre0, hfrB]
  rw [findSub_cont_skip (by omega : b0 < 0x80 ∨ 0xC0 ≤ b0) cl (utf8Encode r) hccont]
  rw [← hfrB]
  have hclen : (utf8EncodeChar c).length = cl.length + 1 := by
    rw [hce]
    simp
  cases findSub (utf8Encode r) (utf8Encode fr) with
  | none => rfl
  | some j =>
    simp only [Option.map_some', Option.some.injEq]
    omega

/-- Byte-level search in the encoding agrees with character-level leftmost
replacement: either there is no occurrence at all, or the first byte match is
the encoded length of the character prefix before the first occurrence. -/
theorem findSub_encode (fr tgt : List Char) (hfr : fr ≠ []) :
    ∀ rest : List Char,
      (findSub (utf8Encode rest) (utf8Encode fr) = none ∧
        replaceSpec fr tgt rest = rest) ∨
      (∃ u v, rest = u ++ fr ++ v ∧
        findSub (utf8Encode rest) (utf8Encode fr) = some (utf8Encode u).length ∧
        replaceSpec fr tgt rest = u ++ tgt ++ replaceSpec fr tgt v) := by
  have hfrB : utf8Encode fr ≠ [] := by
    cases fr with
    | nil => exact absurd rfl hfr
    | cons f0 fl =>
      rw [utf8Encode_cons]
      intro h
      exact utf8EncodeChar_ne_nil f0 (List.append_eq_nil.mp h).1
  intro rest
  induction rest with
  | nil =>
    left
    constructor
    · rw [utf8Encode_nil, findSub_nil, if_neg hfrB]
    · exact replaceSpec_nil fr tgt
  | cons c r ih =>
    by_cases hp : fr.isPrefixOf (c :: r) = true
    · right
      obtain ⟨v, hv⟩ := List.isPrefixOf_iff_prefix.mp hp
      refine ⟨[], v, by simpa using hv.symm, ?_, ?_⟩
      · have hpB : (utf8Encode fr).isPrefixOf (utf8Encode (c :: r)) = true :=
          List.isPrefixOf_iff_prefix.mpr
            (utf8Encode_prefix_mono (List.isPrefixOf_iff_prefix.mp hp))
        obtain ⟨cb, cl, hce, -, -⟩ := utf8EncodeChar_shape c
        have hcsB : utf8Encode (c :: r) = cb :: (cl ++ utf8Encode r) := by
          rw [utf8Encode_cons, hce]
          simp
        rw [hcsB, findSub_cons, ← hcsB, if_pos hpB]
        rfl
      · rw [replaceSpec]
        rw [dif_pos ⟨hfr, hp⟩]
        have hd : (c :: r).drop fr.length = v := by
          rw [← hv, List.drop_left]
        rw [hd]
        rfl
    · have hstep := findSub_encode_cons hfr c r hp
      have hrepl : replaceSpec fr tgt (c :: r) = c :: replaceSpec fr tgt r := by
        rw [replaceSpec, dif_neg (by intro hc; exact hp hc.2)]
      rcases ih with ⟨hn, hs⟩ | ⟨u, v, huv, hfind, hspec⟩
      · left
        rw [hstep, hn]
        exact ⟨rfl, by rw [hrepl, hs]⟩
      · right
        refine ⟨c :: u, v, by rw [huv, List.cons_append, List.cons_append], ?_, ?_⟩
        · rw [hstep, hfind]
          simp only [Option.map_some', Option.some.injEq]
          rw [utf8Encode_cons]
          simp only [List.length_append]
          omega
        · rw [hrepl, hspec]
          rfl

/-- The `while let Some(i) = self[offset..].find(from)` loop of
`replace_in_place`: replace at `offset + i` via `replace_range`, continue
scanning after the inserted text.  Requires a nonempty pattern (guarded by
the caller). -/
def replLoop (fr : List Nat) (hfr : fr ≠ []) (tgt : List Nat) (b : List Nat)
    (offset : Nat) : List Nat :=
  match hf : findSub (b.drop offset) fr with
  | none => b
  | some i =>
      replLoop fr hfr tgt
        (b.take (offset + i) ++ tgt ++ b.drop (offset + i + fr.length))
        (offset + i + tgt.length)
termination_by b.length - offset
decreasing_by
  obtain ⟨hle, -⟩ := findSub_some_le hf
  simp only [List.length_drop] at hle
  simp only [List.length_append, List.length_take, List.length_drop]
  have hfr1 : 0 < fr.length := List.length_pos.mpr hfr
  omega

/-- Models `StringExt::replace_in_place`. -/
def replace_in_place (b : List Nat) (fr tgt : List Char) : List Nat :=
  if h : b = [] ∨ utf8Encode fr = [] then b
  else replLoop (utf8Encode fr) (not_or.mp h).2 (utf8Encode tgt) b 0

theorem replLoop_encode (fr tgt : List Char) (hfr : fr ≠ []) (hfrB : utf8Encode fr ≠ []) :
    ∀ n (rest done : List Char), rest.length = n →
      replLoop (utf8Encode fr) hfrB (utf8Encode tgt)
          (utf8Encode (done ++ rest)) (utf8Encode done).length =
        utf8Encode (done ++ replaceSpec fr tgt rest) := by
  intro n
  induction n using Nat.strong_induction_on with
  | _ n ih =>
    intro rest done hn
    rw [replLoop]
    rcases findSub_encode fr tgt hfr rest with ⟨hnone, hspec⟩ | ⟨u, v, huv, hfind, hspec⟩
    · split
      · rw [hspec]
      · rename_i i heq
        rw [utf8Encode_drop_append, hnone] at heq
        cases heq
    · split
      · rename_i heq
        rw [utf8Encode_drop_append, hfind] at heq
        cases heq
      · rename_i i heq
        rw [utf8Encode_drop_append, hfind] at heq
        injection heq with heq
        subst heq
        have hfr1 : 0 < fr.length := List.length_pos.mpr hfr
        have htake : (utf8Encode (done ++ rest)).take
            ((utf8Encode done).length + (utf8Encode u).length) =
            utf8Encode (done ++ u) := by
          have : done ++ rest = (done ++ u) ++ (fr ++ v) := by
            rw [huv]
            simp [List.append_assoc]
          rw [this]
          have hlen : (utf8Encode done).length + (utf8Encode u).length =
              (utf8Encode (done ++ u)).length := by
            rw [utf8Encode_append, List.length_append]
          rw [hlen]
          exact utf8Encode_take_append _ _
        have hdrop : (utf8Encode (done ++ rest)).drop
            ((utf8Encode done).length + (utf8Encode u).length +
              (utf8Encode fr).length) =
            utf8Encode v := by
          have : done ++ rest = ((done ++ u) ++ fr) ++ v := by
            rw [huv]
            simp [List.append_assoc]
          rw [this]
          have hlen : (utf8Encode done).length + (utf8Encode u).length +
              (utf8Encode fr).length = (utf8Encode ((done ++ u) ++ fr)).length := by
            rw [utf8Encode_append, utf8Encode_append]
            simp only [List.length_append]
          rw [hlen]
          exact utf8Encode_drop_append _ _
        rw [htake, hdrop]
        have hnew : utf8Encode (done ++ u) ++ utf8Encode tgt ++ utf8Encode v =
            utf8Encode ((done ++ u ++ tgt) ++ v) := by
          simp [utf8Encode_append, List.append_assoc]
        have hoff : (utf8Encode done).length + (utf8Encode u).length +
            (utf8Encode tgt).length = (utf8Encode (done ++ u ++ tgt)).length := by
          rw [utf8Encode_append, utf8Encode_append]
          simp only [List.length_append]
        rw [hnew, hoff]
        rw [ih v.length
          (by rw [huv] at hn; simp only [List.length_append] at hn; omega) v
          (done ++ u ++ tgt) rfl]
        rw [hspec]
        simp [List.append_assoc]

theorem replace_in_place_encode (s fr tgt : List Char) (hfr : fr ≠ []) :
    replace_in_place (utf8Encode s) fr tgt = utf8Encode (replaceSpec fr tgt s) := by
  unfold replace_in_place
  have hfrB : utf8Encode fr ≠ [] := by
    cases fr with
    | nil => exact absurd rfl hfr
    | cons f0 fl =>
      rw [utf8Encode_cons]
      intro h
      exact utf8EncodeChar_ne_nil f0 (List.append_eq_nil.mp h).1
  by_cases hs : s = []
  · subst hs
    rw [dif_pos (Or.inl utf8Encode_nil), replaceSpec_nil]
  · have hsB : utf8Encode s ≠ [] := by
      cases s with
      | nil => exact absurd rfl hs
      | cons c cs =>
        rw [utf8Encode_cons]
        intro h
        exact utf8EncodeChar_ne_nil c (List.append_eq_nil.mp h).1
    rw [dif_neg (by push_neg; exact ⟨hsB, hfrB⟩)]
    have := replLoop_encode fr tgt hfr hfrB s.length s [] rfl
    simpa using this

/-- C10: with an empty buffer or an empty pattern, `replace_in_place` leaves
the buffer unchanged (unlike `str::replace`, which inserts `to` at every
boundary for an empty pattern); otherwise it rewrites the buffer to the
standard-library `replace` result (leftmost non-overlapping occurrences of
`from` replaced by `to`, never rescanning inserted text), and it terminates
on every input. -/
theorem claim_C10 (s fr tgt : List Char) :
    ((s = [] ∨ fr = []) → replace_in_place (utf8Encode s) fr tgt = utf8Encode s) ∧
    (fr ≠ [] → replace_in_place (utf8Encode s) fr tgt =
      utf8Encode (replaceSpec fr tgt s)) := by
  constructor
  · intro h
    unfold replace_in_place
    rcases h with h | h
    · subst h
      rw [dif_pos (Or.inl utf8Encode_nil)]
    · subst h
      rw [dif_pos (Or.inr utf8Encode_nil)]
  · exact replace_in_place_encode s fr tgt

theorem claim_C10_witness :
    (((['a', 'b', 'c'] : List Char) = [] ∨ (['b'] : List Char) = []) →
      replace_in_place (utf8Encode ['a', 'b', 'c']) ['b'] ['x', 'y'] =
        utf8Encode ['a', 'b', 'c']) ∧
    ((['b'] : List Char) ≠ [] →
      replace_in_place (utf8Encode ['a', 'b', 'c']) ['b'] ['x', 'y'] =
        utf8Encode (replaceSpec ['b'] ['x', 'y'] ['a', 'b', 'c'])) :=
  claim_C10 ['a', 'b', 'c'] ['b'] ['x', 'y']

/-! ### Claims C2 and C3: UTF-8 preservation and the two families -/

theorem utf8Encode_eq_nil_iff {cs : List Char} : utf8Encode cs = [] ↔ cs = [] := by
  constructor
  · intro h
    cases cs with
    | nil => rfl
    | cons c cs =>
      rw [utf8Encode_cons] at h
      exact absurd (List.append_eq_nil.mp h).1 (utf8EncodeChar_ne_nil c)
  · intro h
    rw [h, utf8Encode_nil]

theorem fill_start_in_place_encode (cs fill : List Char) (times : Nat) :
    fill_start_in_place (utf8Encode cs) fill times =
      utf8Encode (fill_start cs fill times) := by
  simp only [fill_start_in_place, fill_start]
  by_cases h : utf8Encode fill = [] ∨ times = 0
  · rw [if_pos h]
    have : repeatChars fill times = [] := by
      rcases h with h | h
      · exact repeatChars_eq_nil (Or.inl (utf8Encode_eq_nil_iff.mp h))
      · exact repeatChars_eq_nil (Or.inr h)
    rw [this, List.nil_append]
  · rw [if_neg h, utf8Encode_append, utf8Encode_repeatChars]

theorem fill_end_in_place_encode (cs fill : List Char) (times : Nat) :
    fill_end_in_place (utf8Encode cs) fill times =
      utf8Encode (fill_end cs fill times) := by
  simp only [fill_end_in_place, fill_end]
  by_cases h : utf8Encode fill = [] ∨ times = 0
  · rw [if_pos h]
    have hnil : repeatChars fill times = [] := by
      rcases h with h | h
      · exact repeatChars_eq_nil (Or.inl (utf8Encode_eq_nil_iff.mp h))
      · exact repeatChars_eq_nil (Or.inr h)
    rw [hnil, List.append_nil]
  · rw [if_neg h, utf8Encode_append, utf8Encode_repeatChars]

theorem center_in_place_encode (cs fill : List Char) (times : Nat) :
    center_in_place (utf8Encode cs) fill times =
      utf8Encode (center cs fill times) := by
  simp only [center_in_place, center]
  by_cases h : utf8Encode fill = [] ∨ times = 0
  · rw [if_pos h]
    have hnil : repeatChars fill times = [] := by
      rcases h with h | h
      · exact repeatChars_eq_nil (Or.inl (utf8Encode_eq_nil_iff.mp h))
      · exact repeatChars_eq_nil (Or.inr h)
    rw [hnil, List.nil_append, List.append_nil]
  · rw [if_neg h, utf8Encode_append, utf8Encode_append, utf8Encode_repeatChars]

theorem enclose_in_place_encode (cs fs fe : List Char) :
    enclose_in_place (utf8Encode cs) fs fe = utf8Encode (enclose cs fs fe) := by
  simp only [enclose_in_place, enclose]
  by_cases h : utf8Encode fs = [] ∧ utf8Encode fe = []
  · rw [if_pos h]
    rw [utf8Encode_eq_nil_iff.mp h.1, utf8Encode_eq_nil_iff.mp h.2]
    simp
  · rw [if_neg h, utf8Encode_append, utf8Encode_append]

theorem expand_tabs_in_place_eq (cs : List Char) (k : Nat) :
    expand_tabs_in_place (utf8Encode cs) k = some (utf8Encode (expand_tabs cs k)) := by
  rcases Nat.eq_zero_or_pos k with hk | hk
  · subst hk
    rw [expand_tabs_in_place_zero, expand_tabs_zero]
  · rw [expand_tabs_in_place_encode cs hk, expand_tabs_eq_spec cs hk]

theorem shift_eq_shift_in_place (b : List Nat) (index count : Nat) (fill : List Char) :
    shift b index count fill = shift_in_place b index count fill := by
  simp only [shift, shift_in_place]
  by_cases hb : isCharBoundary b index = true
  · rw [if_pos hb, if_pos hb]
    by_cases hle : index ≤ b.length
    · rw [if_pos hle, if_pos hle]
      by_cases h0 : count = 0 ∨ utf8Encode fill = []
      · rw [if_pos h0, if_pos h0]
      · rw [if_neg h0, if_neg h0]
        by_cases h1 : count = 1
        · rw [if_pos h1, h1]
          simp [repeatFill]
        · rw [if_neg h1]
    · rw [if_neg hle, if_neg hle]
  · rw [if_neg hb, if_neg hb]

/-- C2: every in-place operation, under its precondition (for
`shift_in_place`: the index is a `char` boundary, which also forces
`index ≤ length`), leaves the buffer a valid UTF-8 encoding of some
character sequence, for every initial string and all argument values
(the whitespace predicate of the trims is left abstract). -/
theorem claim_C2 (cs s fill fs fe fr tgt : List Char) (times index count k : Nat)
    (ws : Char → Bool) :
    (∃ ds, set (utf8Encode cs) s = utf8Encode ds) ∧
    (∃ ds, trim_start_in_place ws cs = utf8Encode ds) ∧
    (∃ ds, trim_end_in_place ws cs = utf8Encode ds) ∧
    (∃ ds, trim_in_place ws cs = utf8Encode ds) ∧
    (∃ ds, fill_start_in_place (utf8Encode cs) fill times = utf8Encode ds) ∧
    (∃ ds, fill_end_in_place (utf8Encode cs) fill times = utf8Encode ds) ∧
    (∃ ds, center_in_place (utf8Encode cs) fill times = utf8Encode ds) ∧
    (∃ ds, enclose_in_place (utf8Encode cs) fs fe = utf8Encode ds) ∧
    (∃ ds, expand_tabs_in_place (utf8Encode cs) k = some (utf8Encode ds)) ∧
    (isCharBoundary (utf8Encode cs) index = true →
      ∃ ds, shift_in_place (utf8Encode cs) index count fill = some (utf8Encode ds)) ∧
    (∃ ds, replace_in_place (utf8Encode cs) fr tgt = utf8Encode ds) := by
  refine ⟨⟨s, rfl⟩, ⟨trimStartChars ws cs, trim_start_in_place_encode ws cs⟩,
    ⟨trimEndChars ws cs, trim_end_in_place_encode ws cs⟩,
    ⟨trimChars ws cs, trim_in_place_encode ws cs⟩,
    ⟨fill_start cs fill times, fill_start_in_place_encode cs fill times⟩,
    ⟨fill_end cs fill times, fill_end_in_place_encode cs fill times⟩,
    ⟨center cs fill times, center_in_place_encode cs fill times⟩,
    ⟨enclose cs fs fe, enclose_in_place_encode cs fs fe⟩,
    ⟨expand_tabs cs k, expand_tabs_in_place_eq cs k⟩, ?_, ?_⟩
  · intro hb
    obtain ⟨p, sfx, hps, hlen⟩ := (isCharBoundary_encode_iff cs index).mp hb
    subst hps
    rw [← hlen]
    exact ⟨p ++ repeatChars fill count ++ sfx, shift_in_place_encode p sfx count fill⟩
  · by_cases hfr : fr = []
    · subst hfr
      refine ⟨cs, ?_⟩
      exact (claim_C10 cs [] tgt).1 (Or.inr rfl)
    · exact ⟨replaceSpec fr tgt cs, replace_in_place_encode cs fr tgt hfr⟩

theorem claim_C2_witness :
    ((∃ ds, set (utf8Encode ['a']) ['b'] = utf8Encode ds) ∧
    (∃ ds, trim_start_in_place Char.isWhitespace ['a'] = utf8Encode ds) ∧
    (∃ ds, trim_end_in_place Char.isWhitespace ['a'] = utf8Encode ds) ∧
    (∃ ds, trim_in_place Char.isWhitespace ['a'] = utf8Encode ds) ∧
    (∃ ds, fill_start_in_place (utf8Encode ['a']) ['-'] 2 = utf8Encode ds) ∧
    (∃ ds, fill_end_in_place (utf8Encode ['a']) ['-'] 2 = utf8Encode ds) ∧
    (∃ ds, center_in_place (utf8Encode ['a']) ['-'] 2 = utf8Encode ds) ∧
    (∃ ds, enclose_in_place (utf8Encode ['a']) ['('] [')'] = utf8Encode ds) ∧
    (∃ ds, expand_tabs_in_place (utf8Encode ['a']) 2 = some (utf8Encode ds)) ∧
    (isCharBoundary (utf8Encode ['a']) 1 = true →
      ∃ ds, shift_in_place (utf8Encode ['a']) 1 3 ['-'] = some (utf8Encode ds)) ∧
    (∃ ds, replace_in_place (utf8Encode ['a']) ['a'] ['b'] = utf8Encode ds)) ∧
    isCharBoundary (utf8Encode ['a']) 1 = true :=
  ⟨claim_C2 ['a'] ['b'] ['-'] ['('] [')'] ['a'] ['b'] 2 1 3 2 Char.isWhitespace,
    by decide⟩

/-- C3: for each operation present in both families, the allocation-returning
version on a string equals the in-place version run on a fresh copy of the
same string (byte-for-byte), and for `shift`/`shift_in_place` the two agree
on faulting as well (both are `none` on exactly the same inputs). -/
theorem claim_C3 (cs fill fs fe : List Char) (times index count k : Nat) :
    utf8Encode (fill_start cs fill times) =
      fill_start_in_place (utf8Encode cs) fill times ∧
    utf8Encode (fill_end cs fill times) =
      fill_end_in_place (utf8Encode cs) fill times ∧
    utf8Encode (center cs fill times) = center_in_place (utf8Encode cs) fill times ∧
    utf8Encode (enclose cs fs fe) = enclose_in_place (utf8Encode cs) fs fe ∧
    expand_tabs_in_place (utf8Encode cs) k = some (utf8Encode (expand_tabs cs k)) ∧
    shift (utf8Encode cs) index count fill =
      shift_in_place (utf8Encode cs) index count fill :=
  ⟨(fill_start_in_place_encode cs fill times).symm,
    (fill_end_in_place_encode cs fill times).symm,
    (center_in_place_encode cs fill times).symm,
    (enclose_in_place_encode cs fs fe).symm,
    expand_tabs_in_place_eq cs k,
    shift_eq_shift_in_place (utf8Encode cs) index count fill⟩

/-! ### Claim C5: `longest_common_substring` -/

/-- The matching-run count
`sa[ia..].iter().zip(sb[ib..]).take_while(|(ca, cb)| ca == cb).count()`. -/
def matchRun (u v : List Nat) : Nat :=
  ((u.zip v).takeWhile (fun p => p.1 == p.2)).length

/-- The inner `for ib in 0..sb.len()` loop of `longest_common_substring`,
with fuel counting the remaining iterations.  A candidate run longer than the
current best is snapped to boundaries of `a`
(`start = next_char_boundary(ia)`, `end = previous_char_boundary(ia + len)`),
and accepted only if `end - start` still beats the best.  When
`end < start`, the `usize` subtraction `end - start` underflows, which is a
panic in debug builds (and in release the subsequent out-of-order slice
`&self[start..end]` panics); both are modelled as `none`. -/
def lcsInner (aB bB : List Nat) (ia : Nat) : Nat → Nat → List Nat → Option (List Nat)
  | 0, _, best => some best
  | fuel + 1, ib, best =>
    if bB.length - ib < best.length then some best
    else
      let len := matchRun (aB.drop ia) (bB.drop ib)
      if best.length < len then
        let start := next_char_boundary aB ia
        let e := previous_char_boundary aB (ia + len)
        if e < start then none
        else if best.length < e - start then
          lcsInner aB bB ia fuel (ib + 1) ((aB.drop start).take (e - start))
        else lcsInner aB bB ia fuel (ib + 1) best
      else lcsInner aB bB ia fuel (ib + 1) best

/-- The outer `for ia in 0..sa.len()` loop. -/
def lcsOuter (aB bB : List Nat) : Nat → Nat → List Nat → Option (List Nat)
  | 0, _, best => some best
  | fuel + 1, ia, best =>
    if aB.length - ia < best.length then some best
    else
      match lcsInner aB bB ia bB.length 0 best with
      | some best2 => lcsOuter aB bB fuel (ia + 1) best2
      | none => none

/-- Models `StrExt::longest_common_substring` (result as the byte slice of
the first argument; a panic is `none`). -/
def longest_common_substring (a b : List Char) : Option (List Nat) :=
  lcsOuter (utf8Encode a) (utf8Encode b) (utf8Encode a).length 0 []

/-- C5 fails on the code: on `a = "😀"` (`U+1F600`), `b = "😙"` (`U+1F619`)
the two-byte run `9F 98` matching at byte offsets `(1, 1)` has `len = 2 >
0`, snaps to `start = next_char_boundary(1) = 4` and
`end = previous_char_boundary(3) = 0`, and `end - start` underflows `usize`:
the call panics instead of returning a common substring. -/
theorem claim_C5_panic : longest_common_substring ['😀'] ['😙'] = none := by
  decide

/-! ### Claim C1: `levenshtein_distance` -/

/-- The standard unit-cost Levenshtein edit distance over character
sequences (spec side): insertion, deletion and substitution each cost 1. -/
def lev : List Char → List Char → Nat
  | [], t => t.length
  | s, [] => s.length
  | a :: s, b :: t =>
    if a = b then lev s t
    else 1 + min (min (lev s (b :: t)) (lev (a :: s) t)) (lev s t)
termination_by s t => s.length + t.length
decreasing_by
  all_goals simp only [List.length_cons]
  all_goals omega

theorem lev_nil_left (t : List Char) : lev [] t = t.length := by
  cases t <;> rw [lev]

theorem lev_nil_right (s : List Char) : lev s [] = s.length := by
  cases s with
  | nil => rw [lev]
  | cons a s =>
    rw [lev]
    intro h
    cases h

theorem lev_cons_cons (a b : Char) (s t : List Char) :
    lev (a :: s) (b :: t) =
      if a = b then lev s t
      else 1 + min (min (lev s (b :: t)) (lev (a :: s) t)) (lev s t) := by
  rw [lev]

/-- The "last character" recurrence for `lev`, mirror image of the defining
one: it drives the row invariant of the dynamic program. -/
theorem lev_snoc (a b : Char) (x y : List Char) :
    lev (x ++ [a]) (y ++ [b]) =
      if a = b then lev x y
      else 1 + min (min (lev x (y ++ [b])) (lev (x ++ [a]) y)) (lev x y) := by
  have key : ∀ n (x y : List Char), x.length + y.length = n →
      lev (x ++ [a]) (y ++ [b]) =
        if a = b then lev x y
        else 1 + min (min (lev x (y ++ [b])) (lev (x ++ [a]) y)) (lev x y) := by
    intro n
    induction n using Nat.strong_induction_on with
    | _ n ih =>
      intro x y hn
      cases x with
      | nil =>
        cases y with
        | nil =>
          simp only [List.nil_append, lev_cons_cons, lev_nil_left, lev_nil_right]
        | cons c y' =>
          have IH := ih y'.length
            (by simp only [List.length_nil, List.length_cons] at hn ⊢; omega)
            [] y' (by simp)
          simp only [List.nil_append] at IH ⊢
          rw [List.cons_append, lev_cons_cons, lev_cons_cons, IH]
          simp only [lev_nil_left, List.length_append, List.length_cons,
            List.length_nil]
          split_ifs <;> first
          | rfl
          | omega
      | cons d x' =>
        cases y with
        | nil =>
          have IH := ih x'.length
            (by simp only [List.length_nil, List.length_cons] at hn ⊢; omega)
            x' [] (by simp)
          simp only [List.nil_append] at IH ⊢
          rw [List.cons_append, lev_cons_cons, lev_cons_cons, IH]
          simp only [lev_nil_right, List.length_append, List.length_cons,
            List.length_nil]
          split_ifs <;> first
          | rfl
          | omega
        | cons c y' =>
          have IH1 := ih (x'.length + y'.length)
            (by simp only [List.length_cons] at hn ⊢; omega) x' y' rfl
          have IH2 := ih (x'.length + (c :: y').length)
            (by simp only [List.length_cons] at hn ⊢; omega) x' (c :: y') rfl
          have IH3 := ih ((d :: x').length + y'.length)
            (by simp only [List.length_cons] at hn ⊢; omega) (d :: x') y' rfl
          simp only [List.cons_append] at IH1 IH2 IH3 ⊢
          rw [lev_cons_cons d c (x' ++ [a]) (y' ++ [b])]
          rw [IH1, IH2, IH3]
          rw [lev_cons_cons d c x' (y' ++ [b])]
          rw [lev_cons_cons d c (x' ++ [a]) y']
          rw [lev_cons_cons d c x' y']
          split_ifs with h1 h2
          all_goals first
          | rfl
          | (simp only [min_add_add_left]
             congr 1
             congr 1
             ac_rfl)
  exact key (x.length + y.length) x y rfl

theorem lev_reverse (x y : List Char) : lev x.reverse y.reverse = lev x y := by
  have key : ∀ n (x y : List Char), x.length + y.length = n →
      lev x.reverse y.reverse = lev x y := by
    intro n
    induction n using Nat.strong_induction_on with
    | _ n ih =>
      intro x y hn
      cases x with
      | nil =>
        simp only [List.reverse_nil, lev_nil_left, List.length_reverse]
      | cons a x' =>
        cases y with
        | nil =>
          simp only [List.reverse_nil, lev_nil_right, List.length_reverse]
        | cons b y' =>
          rw [List.reverse_cons, List.reverse_cons, lev_snoc, lev_cons_cons]
          rw [ih (x'.length + y'.length)
            (by simp only [List.length_cons] at hn ⊢; omega) x' y' rfl]
          rw [← List.reverse_cons b y',
            ih (x'.length + (b :: y').length)
              (by simp only [List.length_cons] at hn ⊢; omega) x' (b :: y') rfl]
          rw [← List.reverse_cons a x',
            ih ((a :: x').length + y'.length)
              (by simp only [List.length_cons] at hn ⊢; omega) (a :: x') y' rfl]
  exact key (x.length + y.length) x y rfl

theorem lev_symm (x y : List Char) : lev x y = lev y x := by
  have key : ∀ n (x y : List Char), x.length + y.length = n → lev x y = lev y x := by
    intro n
    induction n using Nat.strong_induction_on with
    | _ n ih =>
      intro x y hn
      cases x with
      | nil => rw [lev_nil_left, lev_nil_right]
      | cons a x' =>
        cases y with
        | nil => rw [lev_nil_left, lev_nil_right]
        | cons b y' =>
          rw [lev_cons_cons, lev_cons_cons]
          rw [ih (x'.length + y'.length)
            (by simp only [List.length_cons] at hn ⊢; omega) x' y' rfl]
          rw [ih (x'.length + (b :: y').length)
            (by simp only [List.length_cons] at hn ⊢; omega) x' (b :: y') rfl]
          rw [ih ((a :: x').length + y'.length)
            (by simp only [List.length_cons] at hn ⊢; omega) (a :: x') y' rfl]
          by_cases hab : a = b
          · subst hab
            rw [if_pos rfl, if_pos rfl]
          · rw [if_neg hab, if_neg (fun h => hab h.symm)]
            congr 1
            ac_rfl
  exact key (x.length + y.length) x y rfl

theorem lev_self (x : List Char) : lev x x = 0 := by
  induction x with
  | nil => rw [lev_nil_left, List.length_nil]
  | cons a x ih => rw [lev_cons_cons, if_pos rfl, ih]

/-- Stripping a common suffix preserves the distance. -/
theorem lev_append_right (x y z : List Char) : lev (x ++ z) (y ++ z) = lev x y := by
  induction z using List.reverseRecOn with
  | nil => rw [List.append_nil, List.append_nil]
  | append_singleton z c ih =>
    rw [← List.append_assoc, ← List.append_assoc, lev_snoc, if_pos rfl, ih]

/-- Stripping a common prefix preserves the distance. -/
theorem lev_append_left (p x y : List Char) : lev (p ++ x) (p ++ y) = lev x y := by
  induction p with
  | nil => rw [List.nil_append, List.nil_append]
  | cons c p ih =>
    rw [List.cons_append, List.cons_append, lev_cons_cons, if_pos rfl, ih]

/-- The inner `for (target_index, target_char)` loop of the rolling DP:
`corner` is the old `costs[target_index]`, `left` the already-updated
`costs[target_index]` (the new value), `old` the old `costs` from position
`target_index + 1` on; each step reads `upper = costs[target_index + 1]`,
writes `if source_char == target_char { corner } else
{ 1 + min(min(costs[target_index], upper), corner) }`, and sets
`corner = upper`. -/
def rowStep (c : Char) : Nat → Nat → List Char → List Nat → List Nat
  | _, _, [], _ => []
  | corner, left, d :: ds, old =>
    let upper := old.headD 0
    let v := if c = d then corner else 1 + min (min left upper) corner
    v :: rowStep c upper v ds old.tail

/-- One outer iteration: `costs[0] = source_index + 1` (the old `costs[0]`
is `source_index`), then the inner loop over the target characters. -/
def nextRow (c : Char) (t : List Char) (row : List Nat) : List Nat :=
  (row.headD 0 + 1) :: rowStep c (row.headD 0) (row.headD 0 + 1) t row.tail

/-- The rolling dynamic program of `levenshtein_distance`: `costs` starts as
`0, 1, ..., target_len`, one `nextRow` per source character, and the result
is `costs[target_len]`. -/
def levDP (s t : List Char) : Nat :=
  (s.foldl (fun row c => nextRow c t row) (List.range (t.length + 1))).getD t.length 0

/-- The intended contents of the `costs` row: entry `j` is the distance
between the reversed processed source prefix `X` and the reversed target
prefix of length `j` (continuing from reversed prefix `Y`). -/
def specRow (X Y : List Char) : List Char → List Nat
  | [] => []
  | d :: ds => lev X (d :: Y) :: specRow X (d :: Y) ds

theorem specRow_nil_eq (ts : List Char) :
    ∀ Y : List Char, specRow [] Y ts = List.range' (Y.length + 1) ts.length := by
  induction ts with
  | nil =>
    intro Y
    rfl
  | cons d ds ih =>
    intro Y
    simp only [specRow, lev_nil_left, List.length_cons, List.range'_succ]
    rw [ih (d :: Y)]
    simp

theorem range_eq_specRow (t : List Char) :
    List.range (t.length + 1) = lev [] [] :: specRow [] [] t := by
  rw [List.range_eq_range', List.range'_succ, specRow_nil_eq t []]
  rw [lev_nil_left]
  rfl

theorem rowStep_spec (c : Char) (X : List Char) :
    ∀ (ts Y : List Char),
      rowStep c (lev X Y) (lev (c :: X) Y) ts (specRow X Y ts) =
        specRow (c :: X) Y ts := by
  intro ts
  induction ts with
  | nil =>
    intro Y
    rfl
  | cons d ds ih =>
    intro Y
    simp only [rowStep, specRow, List.headD_cons, List.tail_cons]
    have hv : (if c = d then lev X Y
        else 1 + min (min (lev (c :: X) Y) (lev X (d :: Y))) (lev X Y)) =
        lev (c :: X) (d :: Y) := by
      rw [lev_cons_cons]
      by_cases hcd : c = d
      · rw [if_pos hcd, if_pos hcd]
      · rw [if_neg hcd, if_neg hcd]
        congr 1
        ac_rfl
    rw [hv, ih (d :: Y)]

theorem nextRow_spec (c : Char) (t : List Char) (X : List Char) :
    nextRow c t (lev X [] :: specRow X [] t) =
      lev (c :: X) [] :: specRow (c :: X) [] t := by
  simp only [nextRow, List.headD_cons, List.tail_cons]
  have h1 : lev X [] + 1 = lev (c :: X) [] := by
    rw [lev_nil_right, lev_nil_right, List.length_cons]
  rw [h1, rowStep_spec c X t []]

theorem foldl_nextRow_spec (t : List Char) :
    ∀ (s X : List Char),
      List.foldl (fun row c => nextRow c t row) (lev X [] :: specRow X [] t) s =
        lev (s.reverse ++ X) [] :: specRow (s.reverse ++ X) [] t := by
  intro s
  induction s with
  | nil =>
    intro X
    simp
  | cons c s ih =>
    intro X
    rw [List.foldl_cons, nextRow_spec, ih (c :: X)]
    have : s.reverse ++ (c :: X) = (c :: s).reverse ++ X := by
      simp
    rw [this]

theorem specRow_getD (X : List Char) :
    ∀ (ts Y : List Char),
      (lev X Y :: specRow X Y ts).getD ts.length 0 = lev X (ts.reverse ++ Y) := by
  intro ts
  induction ts with
  | nil =>
    intro Y
    rfl
  | cons d ds ih =>
    intro Y
    simp only [specRow, List.length_cons, List.getD_cons_succ]
    rw [ih (d :: Y)]
    congr 1
    simp

theorem levDP_eq_lev (s t : List Char) : levDP s t = lev s t := by
  unfold levDP
  rw [range_eq_specRow t]
  have h0 : lev ([] : List Char) [] = lev ([] : List Char) [] := rfl
  rw [foldl_nextRow_spec t s []]
  rw [List.append_nil]
  rw [specRow_getD s.reverse t []]
  rw [List.append_nil]
  exact lev_reverse s t

/-- `source.bytes().rev().zip(target.bytes().rev()).take_while(eq).count()`:
length of the longest common byte suffix. -/
def commonSuffixLen (a b : List Nat) : Nat :=
  ((a.reverse.zip b.reverse).takeWhile (fun p => p.1 == p.2)).length

/-- `source.bytes().zip(target.bytes()).take_while(eq).count()`: length of
the longest common byte prefix. -/
def commonPrefixLen (a b : List Nat) : Nat :=
  ((a.zip b).takeWhile (fun p => p.1 == p.2)).length

/-- The `while !source.is_char_boundary(source.len() - end) { end -= 1 }`
realignment (offset `source.len()` is always a boundary, so `end = 0`
terminates the scan). -/
def realignEnd (a : List Nat) : Nat → Nat
  | 0 => 0
  | e + 1 =>
    if isCharBoundary a (a.length - (e + 1)) then e + 1 else realignEnd a e

/-- The `while !source.is_char_boundary(start) { start -= 1 }` realignment
(offset `0` is always a boundary). -/
def realignStart (a : List Nat) : Nat → Nat
  | 0 => 0
  | s + 1 => if isCharBoundary a (s + 1) then s + 1 else realignStart a s

/-- Models `StrExt::levenshtein_distance`.  The pointer-identity fast path
(`source.as_ptr() == target.as_ptr() && source.len() == target.len()`)
applies only when the two arguments are the same string, where the main path
also yields `0` (`lev s s = 0`), so it is omitted from the model.  Suffix
then prefix common-byte stripping (with boundary realignment on `source`),
empty-remainder shortcuts counting the other side's characters, byte-length
based operand swap, then the rolling DP. -/
def levenshtein_distance (s t : List Char) : Nat :=
  let a := utf8Encode s
  let b := utf8Encode t
  let e := realignEnd a (commonSuffixLen a b)
  let a1 := a.take (a.length - e)
  let b1 := b.take (b.length - e)
  let st := realignStart a1 (commonPrefixLen a1 b1)
  let a2 := a1.drop st
  let b2 := b1.drop st
  if a2 = [] then (utf8Decode b2).length
  else if b2 = [] then (utf8Decode a2).length
  else
    let src := if a2.length < b2.length then b2 else a2
    let tgt := if a2.length < b2.length then a2 else b2
    levDP (utf8Decode src) (utf8Decode tgt)

theorem realignEnd_le (a : List Nat) (e : Nat) : realignEnd a e ≤ e := by
  induction e with
  | zero => exact Nat.le_refl 0
  | succ e ih =>
    simp only [realignEnd]
    by_cases hb : isCharBoundary a (a.length - (e + 1)) = true
    · rw [if_pos hb]
    · rw [if_neg hb]
      omega

theorem realignEnd_boundary (a : List Nat) (e : Nat) :
    isCharBoundary a (a.length - realignEnd a e) = true := by
  induction e with
  | zero =>
    simp only [realignEnd, Nat.sub_zero]
    exact isCharBoundary_length a
  | succ e ih =>
    simp only [realignEnd]
    by_cases hb : isCharBoundary a (a.length - (e + 1)) = true
    · rw [if_pos hb]
      exact hb
    · rw [if_neg hb]
      exact ih

theorem realignStart_le (a : List Nat) (s : Nat) : realignStart a s ≤ s := by
  induction s with
  | zero => exact Nat.le_refl 0
  | succ s ih =>
    simp only [realignStart]
    by_cases hb : isCharBoundary a (s + 1) = true
    · rw [if_pos hb]
    · rw [if_neg hb]
      omega

theorem realignStart_boundary (a : List Nat) (s : Nat) :
    isCharBoundary a (realignStart a s) = true := by
  induction s with
  | zero =>
    exact isCharBoundary_zero a
  | succ s ih =>
    simp only [realignStart]
    by_cases hb : isCharBoundary a (s + 1) = true
    · rw [if_pos hb]
      exact hb
    · rw [if_neg hb]
      exact ih

/-- Within the matched length of a `zip`-`take_while eq` scan, the two lists
agree. -/
theorem takeWhile_zip_take {u v : List Nat} :
    ∀ {k : Nat}, k ≤ ((u.zip v).takeWhile (fun p => p.1 == p.2)).length →
      u.take k = v.take k := by
  induction u generalizing v with
  | nil =>
    intro k hk
    simp only [List.zip_nil_left, List.takeWhile_nil, List.length_nil,
      Nat.le_zero] at hk
    subst hk
    rfl
  | cons x u ih =>
    intro k hk
    cases v with
    | nil =>
      simp only [List.zip_nil_right, List.takeWhile_nil, List.length_nil,
        Nat.le_zero] at hk
      subst hk
      rfl
    | cons y v =>
      cases k with
      | zero => rfl
      | succ k =>
        by_cases hxy : x = y
        · subst hxy
          simp only [List.zip_cons_cons, List.takeWhile_cons, beq_self_eq_true,
            if_true, List.length_cons] at hk
          rw [List.take_succ_cons, List.take_succ_cons, ih (v := v) (by omega)]
        · simp [hxy] at hk

theorem commonSuffixLen_agree {a b : List Nat} {e : Nat}
    (he : e ≤ commonSuffixLen a b) :
    a.drop (a.length - e) = b.drop (b.length - e) := by
  have h := takeWhile_zip_take (u := a.reverse) (v := b.reverse) (k := e) he
  rw [List.take_reverse, List.take_reverse] at h
  have := congrArg List.reverse h
  simpa using this

theorem commonPrefixLen_agree {a b : List Nat} {s : Nat}
    (hs : s ≤ commonPrefixLen a b) : a.take s = b.take s :=
  takeWhile_zip_take hs

theorem commonSuffixLen_le_left (a b : List Nat) : commonSuffixLen a b ≤ a.length := by
  have h := (List.takeWhile_prefix (l := a.reverse.zip b.reverse)
    (fun p : Nat × Nat => p.1 == p.2)).length_le
  simp only [List.length_zip, List.length_reverse] at h
  simp only [commonSuffixLen]
  omega

theorem commonSuffixLen_le_right (a b : List Nat) : commonSuffixLen a b ≤ b.length := by
  have h := (List.takeWhile_prefix (l := a.reverse.zip b.reverse)
    (fun p : Nat × Nat => p.1 == p.2)).length_le
  simp only [List.length_zip, List.length_reverse] at h
  simp only [commonSuffixLen]
  omega

/-- Stripping the realigned common byte suffix splits both character strings:
the kept byte prefixes are encodings of `s1`, `t1` and the dropped bytes are
the encoding of a common character suffix `q`. -/
theorem strip_suffix_split_aux (s t : List Char) (e : Nat)
    (hea : e ≤ (utf8Encode s).length) (heb : e ≤ (utf8Encode t).length)
    (hagree : (utf8Encode s).drop ((utf8Encode s).length - e) =
      (utf8Encode t).drop ((utf8Encode t).length - e))
    (hbd : isCharBoundary (utf8Encode s) ((utf8Encode s).length - e) = true) :
    ∃ s1 t1 q, s = s1 ++ q ∧ t = t1 ++ q ∧
      (utf8Encode s).take ((utf8Encode s).length - e) = utf8Encode s1 ∧
      (utf8Encode t).take ((utf8Encode t).length - e) = utf8Encode t1 := by
  obtain ⟨s1, q, hsq, hlen1⟩ := (isCharBoundary_encode_iff s _).mp hbd
  subst hsq
  have htake_a : (utf8Encode (s1 ++ q)).take ((utf8Encode (s1 ++ q)).length - e) =
      utf8Encode s1 := by
    rw [← hlen1]
    exact utf8Encode_take_append s1 q
  have hdrop_a : (utf8Encode (s1 ++ q)).drop ((utf8Encode (s1 ++ q)).length - e) =
      utf8Encode q := by
    rw [← hlen1]
    exact utf8Encode_drop_append s1 q
  have hbd_t : isCharBoundary (utf8Encode t) ((utf8Encode t).length - e) = true := by
    rcases Nat.eq_zero_or_pos e with h0 | hpos
    · subst h0
      rw [Nat.sub_zero]
      exact isCharBoundary_length _
    · have hqlen : (utf8Encode q).length = e := by
        have hl := congrArg List.length hdrop_a
        rw [List.length_drop] at hl
        omega
      cases hq : utf8Encode q with
      | nil =>
        rw [hq] at hqlen
        simp only [List.length_nil] at hqlen
        omega
      | cons x xs =>
        have hx : x < 0x80 ∨ 0xC0 ≤ x := by
          cases q with
          | nil =>
            rw [utf8Encode_nil] at hq
            cases hq
          | cons c q2 =>
            obtain ⟨bb, l, hecl, hstar, _⟩ := utf8EncodeChar_shape c
            rw [utf8Encode_cons, hecl] at hq
            simp only [List.cons_append] at hq
            injection hq with h1 _
            rw [← h1]
            exact hstar
        have hdt : (utf8Encode t).drop ((utf8Encode t).length - e) = x :: xs := by
          rw [← hagree, hdrop_a, hq]
        have hi : (utf8Encode t).length - e < (utf8Encode t).length := by omega
        rw [List.drop_eq_getElem_cons hi] at hdt
        injection hdt with h1 _
        exact isCharBoundary_of_starter
          (by rw [List.getElem?_eq_getElem hi, h1]) hx
  obtain ⟨t1, q2, htq, hlen2⟩ := (isCharBoundary_encode_iff t _).mp hbd_t
  have htake_b : (utf8Encode t).take ((utf8Encode t).length - e) = utf8Encode t1 := by
    rw [← hlen2, htq]
    exact utf8Encode_take_append t1 q2
  have hdrop_b : (utf8Encode t).drop ((utf8Encode t).length - e) = utf8Encode q2 := by
    rw [← hlen2, htq]
    exact utf8Encode_drop_append t1 q2
  have hq2 : q2 = q := utf8Encode_injective (by rw [← hdrop_b, ← hagree, hdrop_a])
  subst hq2
  exact ⟨s1, t1, q2, rfl, htq, htake_a, htake_b⟩

/-- The suffix split at the offsets actually computed by
`levenshtein_distance`. -/
theorem strip_suffix_split (s t : List Char) :
    ∃ s1 t1 q, s = s1 ++ q ∧ t = t1 ++ q ∧
      (utf8Encode s).take ((utf8Encode s).length -
        realignEnd (utf8Encode s) (commonSuffixLen (utf8Encode s) (utf8Encode t))) =
        utf8Encode s1 ∧
      (utf8Encode t).take ((utf8Encode t).length -
        realignEnd (utf8Encode s) (commonSuffixLen (utf8Encode s) (utf8Encode t))) =
        utf8Encode t1 :=
  strip_suffix_split_aux s t _
    (le_trans (realignEnd_le _ _) (commonSuffixLen_le_left _ _))
    (le_trans (realignEnd_le _ _) (commonSuffixLen_le_right _ _))
    (commonSuffixLen_agree (realignEnd_le _ _))
    (realignEnd_boundary _ _)

/-- Stripping a realigned common byte prefix likewise splits both character
strings along a common character prefix `p`. -/
theorem strip_prefix_split_aux (s1 t1 : List Char) (st : Nat)
    (hst : st ≤ commonPrefixLen (utf8Encode s1) (utf8Encode t1))
    (hbd : isCharBoundary (utf8Encode s1) st = true) :
    ∃ p s2 t2, s1 = p ++ s2 ∧ t1 = p ++ t2 ∧
      (utf8Encode s1).drop st = utf8Encode s2 ∧
      (utf8Encode t1).drop st = utf8Encode t2 := by
  obtain ⟨p, s2, hps, hlenp⟩ := (isCharBoundary_encode_iff s1 st).mp hbd
  have htake_a : (utf8Encode s1).take st = utf8Encode p := by
    rw [hps, ← hlenp]
    exact utf8Encode_take_append p s2
  have hdrop_a : (utf8Encode s1).drop st = utf8Encode s2 := by
    rw [hps, ← hlenp]
    exact utf8Encode_drop_append p s2
  have htake_agree : (utf8Encode s1).take st = (utf8Encode t1).take st :=
    commonPrefixLen_agree hst
  have hpre : utf8Encode p <+: utf8Encode t1 := by
    rw [← htake_a, htake_agree]
    exact List.take_prefix st _
  obtain ⟨t2, ht2⟩ := prefix_transfer hpre
  have hdrop_b : (utf8Encode t1).drop st = utf8Encode t2 := by
    rw [← ht2, ← hlenp]
    exact utf8Encode_drop_append p t2
  exact ⟨p, s2, t2, hps, ht2.symm, hdrop_a, hdrop_b⟩

/-- C1: `levenshtein_distance` equals the standard unit-cost Levenshtein
edit distance over the code-point sequences of its arguments — the
common-suffix and common-prefix byte stripping with boundary realignment,
the empty-remainder shortcuts, the byte-length-based operand swap and the
rolling dynamic program all preserve the standard distance. -/
theorem claim_C1 (s t : List Char) : levenshtein_distance s t = lev s t := by
  obtain ⟨s1, t1, q, hs, ht, htka, htkb⟩ := strip_suffix_split s t
  simp only [levenshtein_distance]
  rw [htka, htkb]
  obtain ⟨p, s2, t2, hs1, ht1, hdra, hdrb⟩ := strip_prefix_split_aux s1 t1
    (realignStart (utf8Encode s1) (commonPrefixLen (utf8Encode s1) (utf8Encode t1)))
    (realignStart_le _ _) (realignStart_boundary _ _)
  rw [hdra, hdrb]
  rw [hs, ht, hs1, ht1, lev_append_right, lev_append_left]
  by_cases h2 : utf8Encode s2 = []
  · rw [if_pos h2, utf8Decode_utf8Encode, utf8Encode_eq_nil_iff.mp h2, lev_nil_left]
  · rw [if_neg h2]
    by_cases h3 : utf8Encode t2 = []
    · rw [if_pos h3, utf8Decode_utf8Encode, utf8Encode_eq_nil_iff.mp h3, lev_nil_right]
    · rw [if_neg h3]
      by_cases h4 : (utf8Encode s2).length < (utf8Encode t2).length
      · rw [if_pos h4, if_pos h4, utf8Decode_utf8Encode, utf8Decode_utf8Encode,
          levDP_eq_lev, lev_symm]
      · rw [if_neg h4, if_neg h4, utf8Decode_utf8Encode, utf8Decode_utf8Encode,
          levDP_eq_lev]

end StringMore
